import Mathlib

/-!
# Reference tracking and finalizer bookkeeping of `js_native_api_v8.h`

A shallow embedding of the intrusive list `v8impl::RefTracker`
(`Link`, `Unlink`, `FinalizeAll`) and of the finalizer bookkeeping of
`JSVM_Env__` (`EnqueueFinalizer`, `DequeueFinalizer`, `CheckGCAccess`,
`CHECK_ENV_NOT_IN_GC`), of the argument guards (`jsvm_set_last_error`,
`RETURN_STATUS_IF_FALSE`, `CHECK_ENV`, `CHECK_ARG`) and of the value holder
`v8impl::Finalizer`.  The methods that the header only declares
(`TrackedFinalizer::Finalize`, `RefBase::Ref`, `RefBase::Unref`,
`Reference::Ref`, `Reference::Unref`, the weak callback, `JSVM_Env__::DeleteMe`)
are modelled from the specification; each such definition says so.

Objects live in a heap indexed by address (`Nat`); a C++ pointer that may be
`nullptr` is an `Option Nat`.  Assignments are executed in source order, each
one reading the heap left by the previous one, so aliasing between `this`,
`list`, `prev_` and `next_` behaves as in the C++ code.
-/

namespace v8impl

/-! ## Definitions -/

/-- The two private link fields of `class RefTracker`. -/
structure RefTracker where
  next_ : Option Nat
  prev_ : Option Nat
deriving DecidableEq, Repr

/-- The heap of `RefTracker` objects, by address. -/
abbrev Heap := Nat → RefTracker

/-- The assignment `a->next_ = v`. -/
def setNext (h : Heap) (a : Nat) (v : Option Nat) : Heap :=
  fun x => if x = a then { next_ := v, prev_ := (h x).prev_ } else h x

/-- The assignment `a->prev_ = v`. -/
def setPrev (h : Heap) (a : Nat) (v : Option Nat) : Heap :=
  fun x => if x = a then { next_ := (h x).next_, prev_ := v } else h x

/-- The method `RefTracker::Link(RefList* list)` called on the object at `this`:
```
prev_ = list;
next_ = list->next_;
if (next_ != nullptr) { next_->prev_ = this; }
list->next_ = this;
```
-/
def Link (h : Heap) (this list : Nat) : Heap :=
  let h1 := setPrev h this (some list)
  let h2 := setNext h1 this (h1 list).next_
  let h3 := match (h2 this).next_ with
    | some nx => setPrev h2 nx (some this)
    | none => h2
  setNext h3 list (some this)

/-- The method `RefTracker::Unlink()` called on the object at `this`:
```
if (prev_ != nullptr) { prev_->next_ = next_; }
if (next_ != nullptr) { next_->prev_ = prev_; }
prev_ = nullptr;
next_ = nullptr;
```
-/
def Unlink (h : Heap) (this : Nat) : Heap :=
  let h1 := match (h this).prev_ with
    | some p => setNext h p (h this).next_
    | none => h
  let h2 := match (h1 this).next_ with
    | some nx => setPrev h1 nx (h1 this).prev_
    | none => h1
  setNext (setPrev h2 this none) this none

/-- The chain of `next_` links that starts after the object at `p` visits
exactly the objects `xs`, in this order, and ends in `nullptr`; each visited
object points back to its predecessor through `prev_`. -/
def Chain (h : Heap) : Nat → List Nat → Prop
  | p, [] => (h p).next_ = none
  | p, x :: xs => (h p).next_ = some x ∧ (h x).prev_ = some p ∧ Chain h x xs

instance Chain.instDecidable (h : Heap) : (p : Nat) → (xs : List Nat) → Decidable (Chain h p xs)
  | p, [] => inferInstanceAs (Decidable ((h p).next_ = none))
  | p, x :: xs =>
    have := Chain.instDecidable h x xs
    inferInstanceAs (Decidable ((h p).next_ = some x ∧ (h x).prev_ = some p ∧ Chain h x xs))

/-- The list head at `L` is well formed with element sequence `xs`: following
`next_` from `L` visits `xs` and stops, `prev_` links mirror the `next_`
links, no element occurs twice and the head is not one of its own elements. -/
structure IsList (h : Heap) (L : Nat) (xs : List Nat) : Prop where
  chain : Chain h L xs
  nodup : xs.Nodup
  head_not_mem : L ∉ xs

instance IsList.instDecidable (h : Heap) (L : Nat) (xs : List Nat) : Decidable (IsList h L xs) :=
  decidable_of_iff (Chain h L xs ∧ xs.Nodup ∧ L ∉ xs)
    ⟨fun ⟨a, b, c⟩ => ⟨a, b, c⟩, fun ⟨a, b, c⟩ => ⟨a, b, c⟩⟩

/-- The object at `n` is unlinked: `prev_ == nullptr` and `next_ == nullptr`. -/
def Unlinked (h : Heap) (n : Nat) : Prop :=
  (h n).prev_ = none ∧ (h n).next_ = none

instance Unlinked.instDecidable (h : Heap) (n : Nat) : Decidable (Unlinked h n) :=
  inferInstanceAs (Decidable ((h n).prev_ = none ∧ (h n).next_ = none))

/-- A heap in which every object is unlinked. -/
def emptyHeap : Heap := fun _ => { next_ := none, prev_ := none }

/-- A heap given by a finite table of `(address, next_, prev_)` rows; objects
without a row are unlinked. -/
def heapOfTable : List (Nat × Option Nat × Option Nat) → Heap
  | [] => emptyHeap
  | (a, nx, pv) :: rest => fun x =>
      if x = a then { next_ := nx, prev_ := pv } else heapOfTable rest x

/-- A call of one of the two list operations of `RefTracker`. -/
inductive ListOp where
  | link (this list : Nat)
  | unlink (this : Nat)
deriving DecidableEq, Repr

/-- The heap after one call. -/
def ListOp.run (h : Heap) : ListOp → Heap
  | .link n L => Link h n L
  | .unlink n => Unlink h n

/-- The heap after a sequence of calls, executed from left to right. -/
def runOps (h : Heap) : List ListOp → Heap
  | [] => h
  | op :: ops => runOps (op.run h) ops

/-- Every `Link` of the sequence is called on an object that is unlinked at
the time of the call. -/
def LinksUnlinkedOnly (h : Heap) : List ListOp → Prop
  | [] => True
  | .link n L :: ops => Unlinked h n ∧ LinksUnlinkedOnly (Link h n L) ops
  | .unlink n :: ops => LinksUnlinkedOnly (Unlink h n) ops

instance LinksUnlinkedOnly.instDecidable :
    (h : Heap) → (ops : List ListOp) → Decidable (LinksUnlinkedOnly h ops)
  | _, [] => inferInstanceAs (Decidable True)
  | h, .link n L :: ops =>
    have := LinksUnlinkedOnly.instDecidable (Link h n L) ops
    inferInstanceAs (Decidable (Unlinked h n ∧ LinksUnlinkedOnly (Link h n L) ops))
  | h, .unlink n :: ops =>
    have := LinksUnlinkedOnly.instDecidable (Unlink h n) ops
    inferInstanceAs (Decidable (LinksUnlinkedOnly (Unlink h n) ops))

/-- The object at `b` is reached from the object at `a` by following one or
more `next_` links. -/
inductive Reach (h : Heap) : Nat → Nat → Prop
  | single {a b : Nat} : (h a).next_ = some b → Reach h a b
  | tail {a b c : Nat} : Reach h a b → (h b).next_ = some c → Reach h a c

/-- A list head is an object that starts a chain: its `prev_` is `nullptr`. -/
def IsHead (h : Heap) (a : Nat) : Prop := (h a).prev_ = none

instance IsHead.instDecidable (h : Heap) (a : Nat) : Decidable (IsHead h a) :=
  inferInstanceAs (Decidable ((h a).prev_ = none))

/-- Doubly-linked well-formedness of the whole heap: a non-null `next_` is
mirrored by the `prev_` of its target and a non-null `prev_` by the `next_` of
its target. -/
def WellFormed (h : Heap) : Prop :=
  ∀ m k, ((h m).next_ = some k → (h k).prev_ = some m) ∧
    ((h m).prev_ = some k → (h k).next_ = some m)

/-- The static method `RefTracker::FinalizeAll(RefList* list)`:
```
while (list->next_ != nullptr) { list->next_->Finalize(); }
```
The virtual method `Finalize` is a parameter: `Finalize x s` is the program
state after the call on the object at `x` in state `s`, and `heapOf` reads the
link fields out of a program state.  The fuel bounds the number of times the
loop guard is evaluated; the result is `none` when it runs out, otherwise the
final state and the objects `Finalize` was called on, in call order. -/
def FinalizeAll {σ : Type} (heapOf : σ → Heap) (Finalize : Nat → σ → σ) (list : Nat) :
    Nat → σ → Option (σ × List Nat)
  | 0, _ => none
  | fuel + 1, s =>
    match (heapOf s list).next_ with
    | none => some (s, [])
    | some x =>
      match FinalizeAll heapOf Finalize list fuel (Finalize x s) with
      | none => none
      | some (s2, calls) => some (s2, x :: calls)

/-- The default `virtual void Finalize() {}` of `RefTracker`, called on the
object at `this`: it changes nothing. -/
def RefTracker.Finalize (_this : Nat) (h : Heap) : Heap := h

end v8impl

/-- The status codes of `JSVM_Status` that this header names (the enumeration
itself is declared in `jsvm_types.h`). -/
inductive JSVM_Status where
  | JSVM_OK
  | JSVM_INVALID_ARG
  | JSVM_OBJECT_EXPECTED
  | JSVM_STRING_EXPECTED
  | JSVM_GENERIC_FAILURE
  | JSVM_PENDING_EXCEPTION
  | JSVM_CANNOT_RUN_JS
deriving DecidableEq, Repr

/-- The four fields of `JSVM_ExtendedErrorInfo` that this header assigns. -/
structure JSVM_ExtendedErrorInfo where
  errorMessage : Option String
  engineReserved : Option Nat
  engineErrorCode : Nat
  errorCode : JSVM_Status
deriving DecidableEq

/-- The bookkeeping fields of `struct JSVM_Env__`.  The two embedded `RefList`
objects are given by their addresses in the heap of `RefTracker` objects;
`pending_finalizers` is the `std::unordered_set<v8impl::RefTracker*>`. -/
structure JSVM_Env__ where
  reflist : Nat
  finalizing_reflist : Nat
  pending_finalizers : Finset Nat
  last_error : JSVM_ExtendedErrorInfo
  open_handle_scopes : Int
  open_callback_scopes : Int
  refs : Int
  instance_data : Option Nat
  module_api_version : Int
  in_gc_finalizer : Bool
deriving DecidableEq

/-- The environment right after construction: the default member initializers
of `JSVM_Env__` and the `jsvm_clear_last_error(this)` of its constructor, with
the two list heads at the addresses `0` and `1`. -/
def JSVM_Env__.create (module_api_version : Int) : JSVM_Env__ where
  reflist := 0
  finalizing_reflist := 1
  pending_finalizers := ∅
  last_error := ⟨none, none, 0, .JSVM_OK⟩
  open_handle_scopes := 0
  open_callback_scopes := 0
  refs := 1
  instance_data := none
  module_api_version := module_api_version
  in_gc_finalizer := false

/-- The method `JSVM_Env__::EnqueueFinalizer`:
`pending_finalizers.emplace(finalizer);` -/
def JSVM_Env__.EnqueueFinalizer (env : JSVM_Env__) (finalizer : Nat) : JSVM_Env__ :=
  { env with pending_finalizers := insert finalizer env.pending_finalizers }

/-- The method `JSVM_Env__::DequeueFinalizer`:
`pending_finalizers.erase(finalizer);` -/
def JSVM_Env__.DequeueFinalizer (env : JSVM_Env__) (finalizer : Nat) : JSVM_Env__ :=
  { env with pending_finalizers := env.pending_finalizers.erase finalizer }

/-- The message that `CheckGCAccess` passes to `v8impl::OnFatalError`. -/
def gcAccessMessage : String :=
  "Finalizer is calling a function that may affect GC state.\n" ++
  "The finalizers are run directly from GC and must not affect GC " ++
  "state.\n" ++
  "Use `node_api_post_finalizer` from inside of the finalizer to work " ++
  "around this issue.\n" ++
  "It schedules the call as a new task in the event loop."

/-- The method `JSVM_Env__::CheckGCAccess`:
```
if (module_api_version == JSVM_VERSION_EXPERIMENTAL && in_gc_finalizer) {
  v8impl::OnFatalError(nullptr, "...");
}
```
The constant `JSVM_VERSION_EXPERIMENTAL` of `jsvm_types.h` is a parameter.  The
result is `some message` when `OnFatalError` is called with that message and
`none` when the method returns without calling it. -/
def JSVM_Env__.CheckGCAccess (JSVM_VERSION_EXPERIMENTAL : Int) (env : JSVM_Env__) :
    Option String :=
  if env.module_api_version = JSVM_VERSION_EXPERIMENTAL ∧ env.in_gc_finalizer = true then
    some gcAccessMessage
  else
    none

/-- What a guard at the start of an API function does to that function. -/
inductive GuardResult where
  /-- The function returns this status at once. -/
  | returns (status : JSVM_Status)
  /-- The guard called `OnFatalError` with this message. -/
  | fatal (message : String)
  /-- The function goes on to the call that the guard protects. -/
  | proceeds
deriving DecidableEq, Repr

/-- The macro `CHECK_ENV_NOT_IN_GC(env)`:
```
CHECK_ENV((env));          // if ((env) == nullptr) return JSVM_INVALID_ARG;
(env)->CheckGCAccess();
```
-/
def CHECK_ENV_NOT_IN_GC (JSVM_VERSION_EXPERIMENTAL : Int) (env : Option JSVM_Env__) :
    GuardResult :=
  match env with
  | none => .returns .JSVM_INVALID_ARG
  | some e =>
    match e.CheckGCAccess JSVM_VERSION_EXPERIMENTAL with
    | some message => .fatal message
    | none => .proceeds

/-- The function `jsvm_clear_last_error`: it resets the four fields of
`env->last_error` and returns `JSVM_OK`. -/
def jsvm_clear_last_error (env : JSVM_Env__) : JSVM_Env__ × JSVM_Status :=
  ({ env with last_error := ⟨none, none, 0, .JSVM_OK⟩ }, .JSVM_OK)

/-- The function `jsvm_set_last_error(env, errorCode, engineErrorCode = 0,
engineReserved = nullptr)`: it assigns `errorCode`, `engineErrorCode` and
`engineReserved` of `env->last_error`, leaves `errorMessage`, and returns
`errorCode`. -/
def jsvm_set_last_error (env : JSVM_Env__) (errorCode : JSVM_Status)
    (engineErrorCode : Nat) (engineReserved : Option Nat) : JSVM_Env__ × JSVM_Status :=
  ({ env with
      last_error :=
        { errorMessage := env.last_error.errorMessage
          engineReserved := engineReserved
          engineErrorCode := engineErrorCode
          errorCode := errorCode } },
    errorCode)

/-- The macro `RETURN_STATUS_IF_FALSE(env, condition, status)`:
```
if (!(condition)) { return jsvm_set_last_error((env), (status)); }
```
The result is the environment after the macro and what happens to the API
function that uses it. -/
def RETURN_STATUS_IF_FALSE (env : JSVM_Env__) (condition : Bool) (status : JSVM_Status) :
    JSVM_Env__ × GuardResult :=
  if !condition then
    ((jsvm_set_last_error env status 0 none).1,
      .returns (jsvm_set_last_error env status 0 none).2)
  else
    (env, .proceeds)

/-- The macro `CHECK_ENV(env)`:
```
if ((env) == nullptr) { return JSVM_INVALID_ARG; }
```
-/
def CHECK_ENV (env : Option JSVM_Env__) : GuardResult :=
  match env with
  | none => .returns .JSVM_INVALID_ARG
  | some _ => .proceeds

/-- The macro `CHECK_ARG(env, arg)`:
`RETURN_STATUS_IF_FALSE((env), ((arg) != nullptr), JSVM_INVALID_ARG)`.
The pointer `arg` is `none` when it is `nullptr`. -/
def CHECK_ARG (env : JSVM_Env__) (arg : Option Nat) : JSVM_Env__ × GuardResult :=
  RETURN_STATUS_IF_FALSE env (arg != none) .JSVM_INVALID_ARG

namespace v8impl

/-- The enumeration `Ownership` of a reference. -/
inductive Ownership where
  | kRuntime
  | kUserland
deriving DecidableEq, Repr

/-- Modelled from the spec: the finalize state of a `TrackedFinalizer`, whose
`Finalize` and `FinalizeCore` are declared in this header and defined
elsewhere.  The spec gives it "a `finalized` flag ensuring the callback fires
at most once, and a distinction between has a real callback vs. no callback";
`deleted` records the self-deletion that ends the finalize protocol. -/
structure TrackedFinalizer where
  has_callback : Bool
  finalized : Bool
  deleted : Bool
deriving DecidableEq, Repr

/-- The program state of the finalize protocol: the environment, the heap of
list links, the finalize state of every tracked object, and the log of the
native finalize callbacks that were executed, oldest first, each entry being
the address of the object whose callback ran. -/
structure FinalizerState where
  env : JSVM_Env__
  heap : Heap
  finalizers : Nat → TrackedFinalizer
  callback_log : List Nat

/-- The number of times the native finalize callback of `r` was executed. -/
def callbackCount (r : Nat) (w : FinalizerState) : Nat :=
  w.callback_log.count r

/-- Modelled from the spec: `TrackedFinalizer::Finalize()`, declared in this
header and defined elsewhere.  "`finalize()` must be safe to call at most
meaningfully once; a repeated call is a no-op"; the first call "runs the
callback synchronously, then performs list cleanup and self-deletion". -/
def TrackedFinalizer.Finalize (f : Nat) (w : FinalizerState) : FinalizerState :=
  if (w.finalizers f).finalized = true then w
  else
    { env := w.env
      heap := Unlink w.heap f
      finalizers := fun x =>
        if x = f then
          { has_callback := (w.finalizers f).has_callback, finalized := true, deleted := true }
        else w.finalizers x
      callback_log :=
        if (w.finalizers f).has_callback = true then w.callback_log ++ [f]
        else w.callback_log }

/-- Modelled from the spec: `DeleteReference(ref)`, the explicit destroy of the
embedding API, implemented outside this header.  It "triggers the immediate
finalize path" and takes the object off the pending set ("`dequeueFinalizer(f)`:
removes it (used when an explicit native destroy races ahead of a pending
collector-driven finalize)"). -/
def DeleteReference (r : Nat) (w : FinalizerState) : FinalizerState :=
  TrackedFinalizer.Finalize r
    { env := w.env.DequeueFinalizer r
      heap := w.heap
      finalizers := w.finalizers
      callback_log := w.callback_log }

/-- Modelled from the spec: the collector weak callback `Reference::WeakCallback`,
declared in this header and defined elsewhere: "its only allowed action is to
hand the TrackedFinalizer off to the Environment's deferred path", that is
"it calls `Environment.enqueueFinalizer(this)`". -/
def WeakCallback (r : Nat) (w : FinalizerState) : FinalizerState :=
  { env := w.env.EnqueueFinalizer r
    heap := w.heap
    finalizers := w.finalizers
    callback_log := w.callback_log }

/-- Modelled from the spec: `drainPending()`, implemented outside this header:
it "iterates and finalizes every pending entry" and leaves the pending set
empty.  The order of the iteration is not determined by the set, so it is a
parameter: `order P` lists the entries of `P` in the order of the iteration. -/
def drainPending (order : Finset Nat → List Nat) (w : FinalizerState) : FinalizerState :=
  let w2 := (order w.env.pending_finalizers).foldl (fun acc f => TrackedFinalizer.Finalize f acc) w
  { env := { w2.env with pending_finalizers := ∅ }
    heap := w2.heap
    finalizers := w2.finalizers
    callback_log := w2.callback_log }

/-- An operation of the finalize protocol on some tracked object. -/
inductive FinalizerOp where
  | deleteReference (r : Nat)
  | weakCallback (r : Nat)
  | drain
  | finalize (r : Nat)
deriving DecidableEq, Repr

/-- The state after one operation of the finalize protocol. -/
def FinalizerOp.run (order : Finset Nat → List Nat) (w : FinalizerState) :
    FinalizerOp → FinalizerState
  | .deleteReference r => DeleteReference r w
  | .weakCallback r => WeakCallback r w
  | .drain => drainPending order w
  | .finalize r => TrackedFinalizer.Finalize r w

/-- The state in which nothing is linked, pending or finalized and every
tracked object holds a finalize callback. -/
def FinalizerState.start : FinalizerState where
  env := JSVM_Env__.create 8
  heap := emptyHeap
  finalizers := fun _ => { has_callback := true, finalized := false, deleted := false }
  callback_log := []

/-- The tracked object `r` holds a callback and its callback ran `c` times
before it was finalized: either it is not finalized and the count is `c`, or
it is finalized and the count is `c + 1`. -/
def RanAtMostOnce (r c : Nat) (w : FinalizerState) : Prop :=
  (w.finalizers r).has_callback = true ∧
  (((w.finalizers r).finalized = false ∧ callbackCount r w = c) ∨
    ((w.finalizers r).finalized = true ∧ callbackCount r w = c + 1))

/-- The tracked object `r` is finalized and its callback ran `c + 1` times. -/
def RanOnce (r c : Nat) (w : FinalizerState) : Prop :=
  (w.finalizers r).has_callback = true ∧
  (w.finalizers r).finalized = true ∧ callbackCount r w = c + 1

/-- Modelled from the spec: the reference-counting state of a `RefBase`, whose
`Ref`, `Unref` and `RefCount` are declared in this header and defined
elsewhere.  The header gives the fields `uint32_t refcount_` and
`Ownership ownership_`; `has_live_weak_handle` says that the handle owns "a
still-live weak engine handle", and `destroyed` records that "the handle's
destruction path (finalize + self-delete)" was triggered. -/
structure RefBase where
  refcount_ : Nat
  ownership_ : Ownership
  has_live_weak_handle : Bool
  destroyed : Bool
deriving DecidableEq, Repr

/-- Modelled from the spec: `RefBase::Ref()`, "increments `refcount`, returns
new value", in `uint32_t` arithmetic.  The result is the new state and the
returned value. -/
def RefBase.Ref (r : RefBase) : RefBase × Nat :=
  ({ r with refcount_ := (r.refcount_ + 1) % 2 ^ 32 }, (r.refcount_ + 1) % 2 ^ 32)

/-- Modelled from the spec: `RefBase::Unref()`, declared in this header as
`uint32_t Unref()`: it "requires `refcount > 0`; decrements, returns new value;
if the result is 0 and `ownership == RuntimeOwned`, triggers the handle's
destruction path (finalize + self-delete) unless the handle is also the owner
of a still-live weak engine handle"; "if `ownership == UserOwned`, reaching 0
never auto-destroys".  The requirement `refcount > 0` is an argument of the
method; the result is the new state and the returned value. -/
def RefBase.Unref (r : RefBase) (_h : 0 < r.refcount_) : RefBase × Nat :=
  ({ r with
      refcount_ := r.refcount_ - 1
      destroyed := r.destroyed ||
        (decide (r.refcount_ - 1 = 0) && decide (r.ownership_ = .kRuntime) &&
          !r.has_live_weak_handle) },
    r.refcount_ - 1)

/-- Modelled from the spec: `RefBase::RefCount()`, the observed count. -/
def RefBase.RefCount (r : RefBase) : Nat := r.refcount_

/-- Modelled from the spec: the operation `Ref(ref) -> newCount` of the
external interface (spec section 6), implemented outside this header, on a
valid reference handle: it calls `RefBase::Ref`. -/
def Interface.Ref (r : RefBase) : Except JSVM_Status (RefBase × Nat) :=
  .ok r.Ref

/-- Modelled from the spec: the operation `Unref(ref) -> newCount` of the
external interface (spec section 6), implemented outside this header, on a
valid reference handle: "`Unref` on a handle already at count 0 is a usage
error (GenericFailure)", otherwise it calls `RefBase::Unref`. -/
def Interface.Unref (r : RefBase) : Except JSVM_Status (RefBase × Nat) :=
  if h : r.refcount_ = 0 then .error .JSVM_GENERIC_FAILURE
  else .ok (r.Unref (Nat.pos_of_ne_zero h))

/-- A call of `Ref` or of `Unref` on a reference. -/
inductive RefCall where
  | ref
  | unref
deriving DecidableEq, Repr

/-- The calls of a sequence executed from left to right on a reference through
the external interface: the final state and the values that the calls
returned, or the error of the first call that fails. -/
def runCalls : List RefCall → RefBase → Except JSVM_Status (RefBase × List Nat)
  | [], r => .ok (r, [])
  | .ref :: cs, r =>
    match Interface.Ref r with
    | .error e => .error e
    | .ok (r1, out) =>
      match runCalls cs r1 with
      | .error e => .error e
      | .ok (r2, outs) => .ok (r2, out :: outs)
  | .unref :: cs, r =>
    match Interface.Unref r with
    | .error e => .error e
    | .ok (r1, out) =>
      match runCalls cs r1 with
      | .error e => .error e
      | .ok (r2, outs) => .ok (r2, out :: outs)

/-- The number of `Ref` calls of a sequence. -/
def countRef (cs : List RefCall) : Nat := cs.count .ref

/-- The number of `Unref` calls of a sequence. -/
def countUnref (cs : List RefCall) : Nat := cs.count .unref

/-- The four fields of `class Finalizer`; the pointers `env_`, `finalize_data_`,
`finalize_hint_` and the function pointer `finalize_callback_` are `none` when
they are `nullptr`. -/
structure Finalizer where
  env_ : Option Nat
  finalize_callback_ : Option Nat
  finalize_data_ : Option Nat
  finalize_hint_ : Option Nat
deriving DecidableEq, Repr

/-- The static method `Finalizer::New(env, finalize_callback = nullptr,
finalize_data = nullptr, finalize_hint = nullptr)`, which constructs a
`Finalizer` from its four arguments. -/
def Finalizer.New (env : Option Nat) (finalize_callback : Option Nat := none)
    (finalize_data : Option Nat := none) (finalize_hint : Option Nat := none) : Finalizer :=
  { env_ := env
    finalize_callback_ := finalize_callback
    finalize_data_ := finalize_data
    finalize_hint_ := finalize_hint }

/-- The method `Finalizer::callback()`: the object after the call and the
returned `finalize_callback_`. -/
def Finalizer.callback (f : Finalizer) : Finalizer × Option Nat := (f, f.finalize_callback_)

/-- The method `Finalizer::data()`: the object after the call and the returned
`finalize_data_`. -/
def Finalizer.data (f : Finalizer) : Finalizer × Option Nat := (f, f.finalize_data_)

/-- The method `Finalizer::hint()`: the object after the call and the returned
`finalize_hint_`. -/
def Finalizer.hint (f : Finalizer) : Finalizer × Option Nat := (f, f.finalize_hint_)

/-- The two modes of the engine handle of a reference. -/
inductive HandleMode where
  | Strong
  | Weak
deriving DecidableEq, Repr

/-- Modelled from the spec: the state of a `Reference` (the ManagedReference of
the spec), whose `Ref`, `Unref`, `SetWeak` and `WeakCallback` are declared in
this header and defined elsewhere.  The header gives the fields `persistent_`
and `can_be_weak_`; the handle `persistent_` is given by its `mode` ("`Strong`
(object kept alive, no collector callback armed) or `Weak` (no ownership,
collector callback armed, handle may already be invalidated)") and by
`collected`, which says that the collector reclaimed the value and invalidated
the handle. -/
structure Reference where
  base : RefBase
  can_be_weak_ : Bool
  mode : HandleMode
  collected : Bool
deriving DecidableEq, Repr

/-- Modelled from the spec: `Reference::Ref()`, declared in this header as
`uint32_t Ref()`: the `ref()` of the base ("increments `refcount`, returns new
value") followed by the "mode transition on `ref()` from 0 to 1: if currently
weak, must re-establish strong ownership (re-root the value) and cancel/ignore
any pending weak callback registration if it has not yet fired; if it already
fired and the value was collected, re-rooting is not possible and subsequent
`get()` keeps returning not-found", which "is expected, not an error".  So the
count goes from 0 to 1 in both cases and only the first one makes the handle
strong. -/
def Reference.Ref (r : Reference) : Reference × Nat :=
  if r.base.refcount_ = 0 ∧ r.base.Ref.2 = 1 ∧ r.mode = .Weak ∧ r.collected = false then
    ({ base := { r.base.Ref.1 with has_live_weak_handle := false }
       can_be_weak_ := r.can_be_weak_
       mode := .Strong
       collected := r.collected },
      r.base.Ref.2)
  else
    ({ base := r.base.Ref.1
       can_be_weak_ := r.can_be_weak_
       mode := r.mode
       collected := r.collected },
      r.base.Ref.2)

/-- Modelled from the spec: `Reference::Unref()`, declared in this header as
`uint32_t Unref()`: the `unref()` of the base, which "requires `refcount > 0`",
with the "mode transition on `unref()` reaching 0: if `canBeWeak`, convert the
strong handle to weak and register a collector weak-callback bound to this
instance; if not weakable, the value is kept alive regardless (strong)".  The
handle that turns weak is the "still-live weak engine handle" that defers the
destruction of a runtime-owned reference, unless its value was reclaimed. -/
def Reference.Unref (r : Reference) (h : 0 < r.base.refcount_) : Reference × Nat :=
  if r.base.refcount_ = 1 ∧ r.can_be_weak_ = true then
    ({ base := (RefBase.Unref { r.base with has_live_weak_handle := !r.collected } h).1
       can_be_weak_ := r.can_be_weak_
       mode := .Weak
       collected := r.collected },
      (r.base.Unref h).2)
  else
    ({ base := (r.base.Unref h).1
       can_be_weak_ := r.can_be_weak_
       mode := r.mode
       collected := r.collected },
      (r.base.Unref h).2)

/-- Modelled from the spec: the collector reclaims the value of a reference and
invokes its weak callback, "exactly once per weak registration": this happens
to a weak handle that is not yet invalidated, and invalidates it. -/
def Reference.Reclaim (r : Reference) : Reference :=
  if r.mode = .Weak ∧ r.collected = false then
    { base := { r.base with has_live_weak_handle := false }
      can_be_weak_ := r.can_be_weak_
      mode := r.mode
      collected := true }
  else r

/-- An event in the life of a reference: a `Ref` call, an `Unref` call, or the
collector reclaiming its value. -/
inductive ReferenceOp where
  | ref
  | unref
  | reclaim
deriving DecidableEq, Repr

/-- The reference after one event.  The calls go through the external
interface of spec section 6, where an `Unref` at count 0 is a usage error and
changes nothing. -/
def Reference.step (r : Reference) : ReferenceOp → Reference
  | .ref => r.Ref.1
  | .unref =>
    if h : r.base.refcount_ = 0 then r
    else (r.Unref (Nat.pos_of_ne_zero h)).1
  | .reclaim => r.Reclaim

/-- The reference after a sequence of events, from left to right. -/
def Reference.run (r : Reference) : List ReferenceOp → Reference
  | [] => r
  | op :: ops => Reference.run (r.step op) ops

/-- The invariant of the spec: the handle is in `Strong` mode if and only if
the count is positive or the reference is not weakable. -/
def StrongIffCounted (r : Reference) : Prop :=
  r.mode = .Strong ↔ (0 < r.base.refcount_ ∨ r.can_be_weak_ = false)

instance StrongIffCounted.instDecidable (r : Reference) : Decidable (StrongIffCounted r) :=
  inferInstanceAs (Decidable (r.mode = .Strong ↔ (0 < r.base.refcount_ ∨ r.can_be_weak_ = false)))

/-- The handle is in `Strong` mode if and only if the reference is not
weakable, or the count is positive and the collector has not reclaimed the
value. -/
def StrongIffRooted (r : Reference) : Prop :=
  r.mode = .Strong ↔ (r.can_be_weak_ = false ∨ (0 < r.base.refcount_ ∧ r.collected = false))

instance StrongIffRooted.instDecidable (r : Reference) : Decidable (StrongIffRooted r) :=
  inferInstanceAs (Decidable
    (r.mode = .Strong ↔ (r.can_be_weak_ = false ∨ (0 < r.base.refcount_ ∧ r.collected = false))))

/-- The count stays below `2 ^ 32` through a sequence of events: no `Ref` of
the sequence is called at count `2 ^ 32 - 1`. -/
def CountBelowMax (r : Reference) : List ReferenceOp → Prop
  | [] => True
  | .ref :: ops => r.base.refcount_ + 1 < 2 ^ 32 ∧ CountBelowMax (r.step .ref) ops
  | .unref :: ops => CountBelowMax (r.step .unref) ops
  | .reclaim :: ops => CountBelowMax (r.step .reclaim) ops

instance CountBelowMax.instDecidable :
    (r : Reference) → (ops : List ReferenceOp) → Decidable (CountBelowMax r ops)
  | _, [] => inferInstanceAs (Decidable True)
  | r, .ref :: ops =>
    have := CountBelowMax.instDecidable (r.step .ref) ops
    inferInstanceAs (Decidable (r.base.refcount_ + 1 < 2 ^ 32 ∧ CountBelowMax (r.step .ref) ops))
  | r, .unref :: ops =>
    have := CountBelowMax.instDecidable (r.step .unref) ops
    inferInstanceAs (Decidable (CountBelowMax (r.step .unref) ops))
  | r, .reclaim :: ops =>
    have := CountBelowMax.instDecidable (r.step .reclaim) ops
    inferInstanceAs (Decidable (CountBelowMax (r.step .reclaim) ops))

/-- A `Finalize` call of a tracked object under observation: next to the
program state it keeps a log with one entry per call, in call order, holding
the object the call was made on and the value of `finalizing_reflist.next_` at
the time of the call. -/
def observedFinalize (x : Nat) (s : FinalizerState × List (Nat × Option Nat)) :
    FinalizerState × List (Nat × Option Nat) :=
  (TrackedFinalizer.Finalize x s.1,
    s.2 ++ [(x, (s.1.heap s.1.env.finalizing_reflist).next_)])

/-- Modelled from the spec: `JSVM_Env__::DeleteMe()`, declared in this header
and defined elsewhere.  "Teardown: force-finalizes `finalizingList` fully
before `liveList`": `RefTracker::FinalizeAll(&finalizing_reflist)` followed by
`RefTracker::FinalizeAll(&reflist)`, the `Finalize` being that of the tracked
objects.  The result is `none` when the fuel runs out in one of the two loops,
otherwise the final state and the log of the observed `Finalize` calls. -/
def DeleteMe (fuel : Nat) (w : FinalizerState) :
    Option (FinalizerState × List (Nat × Option Nat)) :=
  match FinalizeAll (fun s => s.1.heap) observedFinalize w.env.finalizing_reflist fuel
      (w, []) with
  | none => none
  | some (s1, _) =>
    match FinalizeAll (fun s => s.1.heap) observedFinalize s1.1.env.reflist fuel s1 with
    | none => none
    | some (s2, _) => some s2

/-! ## Theorems -/

@[simp] theorem setNext_next_self (h : Heap) (a : Nat) (v : Option Nat) :
    (setNext h a v a).next_ = v := by simp [setNext]

@[simp] theorem setNext_prev (h : Heap) (a x : Nat) (v : Option Nat) :
    (setNext h a v x).prev_ = (h x).prev_ := by
  unfold setNext; split <;> simp_all

theorem setNext_next_of_ne (h : Heap) {a x : Nat} (v : Option Nat) (hx : x ≠ a) :
    (setNext h a v x).next_ = (h x).next_ := by simp [setNext, hx]

theorem setNext_next (h : Heap) (a x : Nat) (v : Option Nat) :
    (setNext h a v x).next_ = if x = a then v else (h x).next_ := by
  unfold setNext; split <;> simp_all

@[simp] theorem setPrev_prev_self (h : Heap) (a : Nat) (v : Option Nat) :
    (setPrev h a v a).prev_ = v := by simp [setPrev]

@[simp] theorem setPrev_next (h : Heap) (a x : Nat) (v : Option Nat) :
    (setPrev h a v x).next_ = (h x).next_ := by
  unfold setPrev; split <;> simp_all

theorem setPrev_prev_of_ne (h : Heap) {a x : Nat} (v : Option Nat) (hx : x ≠ a) :
    (setPrev h a v x).prev_ = (h x).prev_ := by simp [setPrev, hx]

theorem setPrev_prev (h : Heap) (a x : Nat) (v : Option Nat) :
    (setPrev h a v x).prev_ = if x = a then v else (h x).prev_ := by
  unfold setPrev; split <;> simp_all

/-- Two heaps are equal when they agree on both link fields of every object. -/
theorem heap_ext {h1 h2 : Heap}
    (hn : ∀ x, (h1 x).next_ = (h2 x).next_) (hp : ∀ x, (h1 x).prev_ = (h2 x).prev_) :
    h1 = h2 := by
  funext x
  have a := hn x
  have b := hp x
  revert a b
  cases h1 x
  cases h2 x
  intro a b
  simp_all

/-- The `next_` field of every object after `Link`. -/
theorem Link_next (h : Heap) (n L x : Nat) :
    (Link h n L x).next_ =
      if x = L then some n else if x = n then (h L).next_ else (h x).next_ := by
  have key : ∀ (o : Option Nat) (g : Heap),
      ((match o with
        | some nx => setPrev g nx (some n)
        | none => g) x).next_ = (g x).next_ := by
    intro o g
    cases o <;> simp
  simp only [Link, setNext_next, key, setPrev_next]

/-- The `prev_` field of every object after `Link`. -/
theorem Link_prev (h : Heap) (n L x : Nat) :
    (Link h n L x).prev_ =
      if (h L).next_ = some x then some n else if x = n then some L else (h x).prev_ := by
  simp only [Link, setNext_prev, setNext_next_self, setPrev_next]
  cases hL : (h L).next_ with
  | none => simp [setPrev_prev]
  | some f => simp [setPrev_prev, eq_comm]

/-- The object `this` keeps its `next_` through the first assignment of
`Unlink`, also when it is its own predecessor. -/
theorem Unlink_aux_next (h : Heap) (n : Nat) :
    ((match (h n).prev_ with
      | some p => setNext h p (h n).next_
      | none => h) n).next_ = (h n).next_ := by
  cases (h n).prev_ with
  | none => rfl
  | some p => simp [setNext_next]

/-- The `next_` field of every object after `Unlink`. -/
theorem Unlink_next (h : Heap) (n x : Nat) :
    (Unlink h n x).next_ =
      if x = n then none else if (h n).prev_ = some x then (h n).next_ else (h x).next_ := by
  have key : ∀ (o v : Option Nat) (g : Heap),
      ((match o with
        | some nx => setPrev g nx v
        | none => g) x).next_ = (g x).next_ := by
    intro o v g
    cases o <;> simp
  simp only [Unlink, setNext_next, setPrev_next, key]
  split
  · rfl
  · cases hp : (h n).prev_ with
    | none => simp
    | some p => simp [setNext_next, eq_comm]

/-- The `prev_` field of every object after `Unlink`. -/
theorem Unlink_prev (h : Heap) (n x : Nat) :
    (Unlink h n x).prev_ =
      if x = n then none else if (h n).next_ = some x then (h n).prev_ else (h x).prev_ := by
  have key : ∀ (o v : Option Nat) (g : Heap) (y : Nat),
      ((match o with
        | some p => setNext g p v
        | none => g) y).prev_ = (g y).prev_ := by
    intro o v g y
    cases o <;> simp
  simp only [Unlink, setNext_prev, setPrev_prev, Unlink_aux_next]
  split
  · rfl
  · cases hq : (h n).next_ with
    | none => simp [key]
    | some q => simp [setPrev_prev, key, eq_comm]

/-- After `Unlink` the object itself is unlinked, in every state. -/
theorem Unlink_unlinked (h : Heap) (n : Nat) : Unlinked (Unlink h n) n := by
  simp [Unlinked, Unlink_next, Unlink_prev]

/-- `Unlink` on an unlinked object changes nothing. -/
theorem Unlink_of_unlinked (h : Heap) (n : Nat) (hn : Unlinked h n) : Unlink h n = h := by
  obtain ⟨hp, hq⟩ := hn
  apply heap_ext
  · intro x
    rw [Unlink_next]
    by_cases hx : x = n
    · simp [hx, hq]
    · simp [hx, hp]
  · intro x
    rw [Unlink_prev]
    by_cases hx : x = n
    · simp [hx, hp]
    · simp [hx, hq]

/-- A chain only depends on the `next_` fields of its objects and on the
`prev_` fields of its elements. -/
theorem Chain_congr {h g : Heap} : ∀ (xs : List Nat) (p : Nat),
    (∀ x, x ∈ p :: xs → (g x).next_ = (h x).next_) →
    (∀ x, x ∈ xs → (g x).prev_ = (h x).prev_) →
    Chain h p xs → Chain g p xs
  | [], p, hn, _, hc => by
    simp only [Chain] at hc ⊢
    rw [hn p (List.mem_singleton.mpr rfl)]
    exact hc
  | x :: xs, p, hn, hp, hc => by
    simp only [Chain] at hc ⊢
    obtain ⟨h1, h2, h3⟩ := hc
    refine ⟨?_, ?_, ?_⟩
    · rw [hn p (List.mem_cons_self _ _)]
      exact h1
    · rw [hp x (List.mem_cons_self _ _)]
      exact h2
    · exact Chain_congr xs x (fun y hy => hn y (List.mem_cons_of_mem _ hy))
        (fun y hy => hp y (List.mem_cons_of_mem _ hy)) h3

/-- In a chain the `next_` of every object on it is an element of the chain. -/
theorem Chain_next_mem {h : Heap} : ∀ (xs : List Nat) (p m y : Nat),
    Chain h p xs → m ∈ p :: xs → (h m).next_ = some y → y ∈ xs
  | [], p, m, y, hc, hm, hy => by
    simp only [Chain] at hc
    simp only [List.mem_singleton] at hm
    subst hm
    rw [hc] at hy
    exact absurd hy (by simp)
  | x :: xs, p, m, y, hc, hm, hy => by
    simp only [Chain] at hc
    obtain ⟨h1, _, h3⟩ := hc
    rcases List.mem_cons.mp hm with rfl | hm
    · rw [h1] at hy
      cases hy
      exact List.mem_cons_self _ _
    · exact List.mem_cons_of_mem _ (Chain_next_mem xs x m y h3 hm hy)

/-- In a chain the `prev_` of every element is an object on the chain. -/
theorem Chain_prev_mem {h : Heap} : ∀ (xs : List Nat) (p m : Nat),
    Chain h p xs → m ∈ xs → ∃ q, (h m).prev_ = some q ∧ q ∈ p :: xs
  | [], _, _, _, hm => absurd hm (List.not_mem_nil _)
  | x :: xs, p, m, hc, hm => by
    simp only [Chain] at hc
    obtain ⟨_, h2, h3⟩ := hc
    rcases List.mem_cons.mp hm with rfl | hm
    · exact ⟨p, h2, List.mem_cons_self _ _⟩
    · obtain ⟨q, hq, hqm⟩ := Chain_prev_mem xs x m h3 hm
      exact ⟨q, hq, List.mem_cons_of_mem _ hqm⟩

/-- The first element of a chain is what the `next_` of its start points to. -/
theorem Chain_head {h : Heap} {p : Nat} {xs : List Nat} (hc : Chain h p xs) :
    (h p).next_ = xs.head? := by
  cases xs with
  | nil => simpa [Chain] using hc
  | cons x xs => simpa [Chain] using hc.1

/-- Linking an unlinked object in front of a well-formed list gives the
well-formed list with that object as new first element. -/
theorem Link_isList {h : Heap} {L n : Nat} {xs : List Nat}
    (hl : IsList h L xs) (hnL : n ≠ L) (hnx : n ∉ xs) :
    IsList (Link h n L) L (n :: xs) := by
  obtain ⟨hc, hnd, hLx⟩ := hl
  have hhead := Chain_head hc
  refine ⟨?_, List.nodup_cons.mpr ⟨hnx, hnd⟩, ?_⟩
  · simp only [Chain]
    refine ⟨by simp [Link_next], ?_, ?_⟩
    · rw [Link_prev, hhead]
      cases xs with
      | nil => simp
      | cons f rest =>
        have : f ≠ n := fun e => hnx (e ▸ List.mem_cons_self _ _)
        simp [this]
    · cases xs with
      | nil => simp [Chain, Link_next, hnL, hhead]
      | cons f rest =>
        simp only [Chain] at hc ⊢
        obtain ⟨h1, _, h3⟩ := hc
        have hfL : f ≠ L := fun e => hLx (e ▸ List.mem_cons_self _ _)
        have hfn : f ≠ n := fun e => hnx (e ▸ List.mem_cons_self _ _)
        have hfr : f ∉ rest := (List.nodup_cons.mp hnd).1
        refine ⟨by simp [Link_next, hnL, h1], by simp [Link_prev, h1], ?_⟩
        refine Chain_congr rest f ?_ ?_ h3
        · intro x hx
          have hxL : x ≠ L := fun e => hLx (e ▸ hx)
          have hxn : x ≠ n := fun e => hnx (e ▸ hx)
          simp [Link_next, hxL, hxn]
        · intro x hx
          have hxn : x ≠ n := fun e => hnx (e ▸ List.mem_cons_of_mem _ hx)
          have hxf : f ≠ x := fun e => hfr (e ▸ hx)
          simp [Link_prev, h1, hxn, hxf]
  · intro hm
    rcases List.mem_cons.mp hm with e | hm
    · exact hnL e.symm
    · exact hLx hm

/-- Unlinking the element `n` of a chain leaves the chain without `n`. -/
theorem Unlink_chain {h : Heap} {n : Nat} : ∀ (xs : List Nat) (p : Nat),
    Chain h p xs → (p :: xs).Nodup → n ∈ xs → Chain (Unlink h n) p (xs.erase n)
  | [], _, _, _, hm => absurd hm (List.not_mem_nil _)
  | x :: rest, p, hc, hnd, hm => by
    have hc0 := hc
    simp only [Chain] at hc
    obtain ⟨h1, h2, h3⟩ := hc
    obtain ⟨hp, hnd2⟩ := List.nodup_cons.mp hnd
    obtain ⟨hxr, hnd3⟩ := List.nodup_cons.mp hnd2
    have hpx : p ≠ x := fun e => hp (e ▸ List.mem_cons_self _ _)
    by_cases hxn : x = n
    · subst hxn
      rw [List.erase_cons_head]
      have hhead := Chain_head h3
      cases rest with
      | nil => simpa [Chain, Unlink_next, hpx, h2] using hhead
      | cons y rest2 =>
        simp only [Chain] at h3 ⊢
        obtain ⟨g1, _, g3⟩ := h3
        have hyx : y ≠ x := fun e => hxr (e ▸ List.mem_cons_self _ _)
        obtain ⟨hyr, _⟩ := List.nodup_cons.mp hnd3
        refine ⟨by simp [Unlink_next, hpx, h2, g1], by simp [Unlink_prev, hyx, g1, h2], ?_⟩
        refine Chain_congr rest2 y ?_ ?_ g3
        · intro z hz
          have hzx : z ≠ x := fun e => hxr (e ▸ hz)
          have hzp : p ≠ z := fun e => hp (e ▸ List.mem_cons_of_mem _ hz)
          simp [Unlink_next, hzx, h2, hzp]
        · intro z hz
          have hzx : z ≠ x := fun e => hxr (e ▸ List.mem_cons_of_mem _ hz)
          have hzy : y ≠ z := fun e => hyr (e ▸ hz)
          simp [Unlink_prev, hzx, g1, hzy]
    · have hnr : n ∈ rest := by
        rcases List.mem_cons.mp hm with e | hm
        · exact absurd e.symm hxn
        · exact hm
      have hpn : p ≠ n := fun e => hp (e ▸ hm)
      rw [List.erase_cons_tail (by simpa using hxn)]
      simp only [Chain]
      obtain ⟨q, hq, hqm⟩ := Chain_prev_mem rest x n h3 hnr
      have hqp : q ≠ p := fun e => hp (e ▸ hqm)
      have hnx : ∀ y, (h n).next_ = some y → y ≠ x := fun y hy e =>
        hxr (e ▸ Chain_next_mem rest x n y h3 (List.mem_cons_of_mem _ hnr) hy)
      refine ⟨?_, ?_, Unlink_chain rest x h3 hnd2 hnr⟩
      · simp [Unlink_next, hpn, hq, hqp, h1]
      · rw [Unlink_prev, if_neg hxn, if_neg (fun e => hnx x e rfl)]
        exact h2

/-- Unlinking an element of a well-formed list gives the well-formed list
without that element. -/
theorem Unlink_isList {h : Heap} {L n : Nat} {xs : List Nat}
    (hl : IsList h L xs) (hn : n ∈ xs) : IsList (Unlink h n) L (xs.erase n) := by
  obtain ⟨hc, hnd, hLx⟩ := hl
  exact ⟨Unlink_chain xs L hc (List.nodup_cons.mpr ⟨hLx, hnd⟩) hn, hnd.erase n,
    fun hm => hLx (List.mem_of_mem_erase hm)⟩

/-- Objects that are neither `this`, nor `list`, nor the former first element
keep both links through `Link`. -/
theorem Link_frame (h : Heap) (n L m : Nat)
    (hmL : m ≠ L) (hmn : m ≠ n) (hmf : (h L).next_ ≠ some m) : Link h n L m = h m := by
  have a : (Link h n L m).next_ = (h m).next_ := by simp [Link_next, hmL, hmn]
  have b : (Link h n L m).prev_ = (h m).prev_ := by simp [Link_prev, hmn, hmf]
  revert a b
  cases Link h n L m
  cases h m
  intro a b
  simp_all

/-- Objects that are neither `this` nor one of its two neighbours keep both
links through `Unlink`. -/
theorem Unlink_frame (h : Heap) (n m : Nat)
    (hmn : m ≠ n) (hmp : (h n).prev_ ≠ some m) (hmq : (h n).next_ ≠ some m) :
    Unlink h n m = h m := by
  have a : (Unlink h n m).next_ = (h m).next_ := by simp [Unlink_next, hmn, hmp]
  have b : (Unlink h n m).prev_ = (h m).prev_ := by simp [Unlink_prev, hmn, hmq]
  revert a b
  cases Unlink h n m
  cases h m
  intro a b
  simp_all

/-! ### C1: `Link` inserts at the head -/

/-- C1: for a well-formed list head `L` with element sequence `xs` and an
unlinked node `n` other than `L` that is not in `xs`, after `n.Link(L)` the
element sequence of `L` is `n` followed by `xs`: `L.next_` is `n`, `n.prev_` is
`L`, `n.next_` is the former first element (null when `xs` is empty), the former
first element points back to `n`, and no other link changes (the head keeps its
`prev_`, the former first element keeps its `next_`, every other object keeps
both links). -/
theorem Link_inserts_at_head (h : Heap) (L n : Nat) (xs : List Nat)
    (hl : IsList h L xs) (hn : Unlinked h n) (hnL : n ≠ L) (hnx : n ∉ xs) :
    IsList (Link h n L) L (n :: xs) ∧
    (Link h n L L).next_ = some n ∧
    (Link h n L n).prev_ = some L ∧
    (Link h n L n).next_ = xs.head? ∧
    (∀ f, xs.head? = some f →
      (Link h n L f).prev_ = some n ∧ (Link h n L f).next_ = (h f).next_) ∧
    (Link h n L L).prev_ = (h L).prev_ ∧
    (∀ m, m ≠ L → m ≠ n → xs.head? ≠ some m → Link h n L m = h m) := by
  have hhead := Chain_head hl.chain
  have _ := hn
  have hLn : (h L).next_ ≠ some n := by
    intro e
    rw [hhead] at e
    cases xs with
    | nil => simp at e
    | cons f rest =>
      simp only [List.head?_cons, Option.some.injEq] at e
      exact hnx (e ▸ List.mem_cons_self _ _)
  have hLL : (h L).next_ ≠ some L := by
    intro e
    rw [hhead] at e
    cases xs with
    | nil => simp at e
    | cons f rest =>
      simp only [List.head?_cons, Option.some.injEq] at e
      exact hl.head_not_mem (e ▸ List.mem_cons_self _ _)
  refine ⟨Link_isList hl hnL hnx, by simp [Link_next], ?_, ?_, ?_, ?_, ?_⟩
  · simp [Link_prev, hLn]
  · simp [Link_next, hnL, hhead]
  · intro f hf
    have hLf : (h L).next_ = some f := hhead.trans hf
    have hfL : f ≠ L := fun e => hLL (e ▸ hLf)
    have hfn : f ≠ n := fun e => hLn (e ▸ hLf)
    exact ⟨by simp [Link_prev, hLf], by simp [Link_next, hfL, hfn]⟩
  · simp [Link_prev, hLL, Ne.symm hnL]
  · intro m hmL hmn hmf
    exact Link_frame h n L m hmL hmn (by rw [hhead]; exact hmf)

/-- C1 at the list `0 → 1 → 2` and the unlinked node `3`. -/
theorem Link_inserts_at_head_witness :
    IsList (Link (heapOfTable [(0, some 1, none), (1, some 2, some 0), (2, none, some 1)]) 3 0)
      0 [3, 1, 2] :=
  (Link_inserts_at_head (heapOfTable [(0, some 1, none), (1, some 2, some 0), (2, none, some 1)])
    0 3 [1, 2] (by decide) (by decide) (by decide) (by decide)).1

/-! ### C2: `Unlink` removes an element -/

/-- C2: for a well-formed list with element sequence `xs` and a node `n` in
`xs` (first, inner or last), after `n.Unlink()` the list is well formed with
element sequence `xs` without `n`, the other elements in their former order
and with mirrored `prev_`/`next_` links, `n` has `prev_ = next_ = nullptr`, and
objects outside the list keep their links. -/
theorem Unlink_removes_element (h : Heap) (L n : Nat) (xs : List Nat)
    (hl : IsList h L xs) (hn : n ∈ xs) :
    IsList (Unlink h n) L (xs.erase n) ∧
    xs.erase n = xs.filter (fun y => y != n) ∧
    (Unlink h n n).prev_ = none ∧ (Unlink h n n).next_ = none ∧
    (∀ m, m ≠ L → m ∉ xs → Unlink h n m = h m) := by
  refine ⟨Unlink_isList hl hn, hl.nodup.erase_eq_filter n, (Unlink_unlinked h n).1,
    (Unlink_unlinked h n).2, ?_⟩
  intro m hmL hmx
  obtain ⟨q, hq, hqm⟩ := Chain_prev_mem xs L n hl.chain hn
  refine Unlink_frame h n m (fun e => hmx (e ▸ hn)) ?_ ?_
  · rw [hq]
    intro e
    cases e
    rcases List.mem_cons.mp hqm with e | hqm
    · exact hmL e
    · exact hmx hqm
  · intro e
    exact hmx (Chain_next_mem xs L n m hl.chain (List.mem_cons_of_mem _ hn) e)

/-- C2 at the list `0 → 1 → 2 → 3`, unlinking the inner node `2`. -/
theorem Unlink_removes_element_witness :
    IsList (Unlink (heapOfTable
      [(0, some 1, none), (1, some 2, some 0), (2, some 3, some 1), (3, none, some 2)]) 2)
      0 [1, 3] :=
  (Unlink_removes_element (heapOfTable
      [(0, some 1, none), (1, some 2, some 0), (2, some 3, some 1), (3, none, some 2)])
    0 2 [1, 2, 3] (by decide) (by decide)).1

/-! ### C3: `Unlink` is idempotent -/

/-- C3: in every state, calling `n.Unlink()` twice gives the state that one
call gives, and `Unlink` on a node with `prev_ = next_ = nullptr` changes no
link of any object. -/
theorem Unlink_idempotent (h : Heap) (n : Nat) :
    Unlink (Unlink h n) n = Unlink h n ∧ (Unlinked h n → Unlink h n = h) :=
  ⟨Unlink_of_unlinked (Unlink h n) n (Unlink_unlinked h n), Unlink_of_unlinked h n⟩

/-- C3 at the unlinked node `0` of the empty heap. -/
theorem Unlink_idempotent_witness :
    Unlinked emptyHeap 0 ∧ Unlink emptyHeap 0 = emptyHeap :=
  ⟨by decide, (Unlink_idempotent emptyHeap 0).2 (by decide)⟩

/-! ### C4: membership in at most one list -/

/-- The heap in which every object is unlinked is well formed. -/
theorem emptyHeap_wellFormed : WellFormed emptyHeap := by
  intro m k
  simp [emptyHeap]

/-- `Link` called on an unlinked object keeps the heap well formed. -/
theorem Link_wellFormed {h : Heap} (n L : Nat) (hw : WellFormed h) (hn : Unlinked h n) :
    WellFormed (Link h n L) := by
  obtain ⟨hnp, hnn⟩ := hn
  intro m k
  constructor
  · intro e
    rw [Link_next] at e
    rw [Link_prev]
    by_cases hmL : m = L
    · subst hmL
      simp only [if_true, Option.some.injEq] at e
      subst e
      have : (h m).next_ ≠ some n := fun e2 => by
        have := (hw m n).1 e2
        rw [hnp] at this
        cases this
      simp [this]
    · rw [if_neg hmL] at e
      by_cases hmn : m = n
      · subst hmn
        rw [if_pos rfl] at e
        simp [e]
      · rw [if_neg hmn] at e
        have hk := (hw m k).1 e
        have h1 : (h L).next_ ≠ some k := fun e2 => by
          have := (hw L k).1 e2
          rw [hk] at this
          exact hmL (Option.some.inj this)
        have h2 : k ≠ n := fun e2 => by
          rw [e2, hnp] at hk
          cases hk
        simp [h1, h2, hk]
  · intro e
    rw [Link_prev] at e
    rw [Link_next]
    by_cases hLm : (h L).next_ = some m
    · simp only [hLm, if_true, Option.some.injEq] at e
      subst e
      have hnL : n ≠ L := fun e2 => by
        rw [← e2, hnn] at hLm
        cases hLm
      simp [hnL, hLm]
    · rw [if_neg hLm] at e
      by_cases hmn : m = n
      · subst hmn
        simp only [if_true, Option.some.injEq] at e
        simp [e]
      · rw [if_neg hmn] at e
        have hk := (hw m k).2 e
        have h1 : k ≠ L := fun e2 => hLm (e2 ▸ hk)
        have h2 : k ≠ n := fun e2 => by
          rw [e2, hnn] at hk
          cases hk
        simp [h1, h2, hk]

/-- `Unlink` keeps the heap well formed. -/
theorem Unlink_wellFormed {h : Heap} (n : Nat) (hw : WellFormed h) :
    WellFormed (Unlink h n) := by
  intro m k
  constructor
  · intro e
    rw [Unlink_next] at e
    rw [Unlink_prev]
    by_cases hmn : m = n
    · simp [hmn] at e
    · rw [if_neg hmn] at e
      by_cases hpm : (h n).prev_ = some m
      · rw [if_pos hpm] at e
        have hkn : k ≠ n := fun e2 => by
          have := (hw n n).1 (e2 ▸ e)
          rw [hpm] at this
          exact hmn (Option.some.inj this)
        simp [hkn, e, hpm]
      · rw [if_neg hpm] at e
        have hk := (hw m k).1 e
        have hkn : k ≠ n := fun e2 => hpm (e2 ▸ hk)
        have hnk : (h n).next_ ≠ some k := fun e2 => by
          have := (hw n k).1 e2
          rw [hk] at this
          exact hmn (Option.some.inj this)
        simp [hkn, hnk, hk]
  · intro e
    rw [Unlink_prev] at e
    rw [Unlink_next]
    by_cases hmn : m = n
    · simp [hmn] at e
    · rw [if_neg hmn] at e
      by_cases hqm : (h n).next_ = some m
      · rw [if_pos hqm] at e
        have hkn : k ≠ n := fun e2 => by
          have := (hw n n).2 (e2 ▸ e)
          rw [hqm] at this
          exact hmn (Option.some.inj this)
        simp [hkn, e, hqm]
      · rw [if_neg hqm] at e
        have hk := (hw m k).2 e
        have hkn : k ≠ n := fun e2 => hqm (e2 ▸ hk)
        have hnk : (h n).prev_ ≠ some k := fun e2 => by
          have := (hw n k).2 e2
          rw [hk] at this
          exact hmn (Option.some.inj this)
        simp [hkn, hnk, hk]

/-- Well-formedness is kept by every sequence of calls whose `Link`s are
called on unlinked objects. -/
theorem runOps_wellFormed : ∀ (ops : List ListOp) (h : Heap),
    WellFormed h → LinksUnlinkedOnly h ops → WellFormed (runOps h ops)
  | [], _, hw, _ => hw
  | .link n L :: ops, h, hw, hd =>
    runOps_wellFormed ops (Link h n L) (Link_wellFormed n L hw hd.1) hd.2
  | .unlink n :: ops, h, hw, hd =>
    runOps_wellFormed ops (Unlink h n) (Unlink_wellFormed n hw) hd

/-- In a well-formed heap two chains that reach the same object start at the
same object or one start lies on the chain of the other. -/
theorem Reach_common {h : Heap} (hw : WellFormed h) {a n : Nat} (ha : Reach h a n) :
    ∀ {b : Nat}, Reach h b n → a = b ∨ Reach h a b ∨ Reach h b a := by
  induction ha with
  | single e =>
    intro b hb
    cases hb with
    | single e2 =>
      left
      have := ((hw _ _).1 e).symm.trans ((hw _ _).1 e2)
      exact Option.some.inj this
    | tail r e2 =>
      right; right
      have := ((hw _ _).1 e).symm.trans ((hw _ _).1 e2)
      rw [Option.some.inj this]
      exact r
  | tail r e ih =>
    intro b hb
    cases hb with
    | single e2 =>
      right; left
      have := ((hw _ _).1 e).symm.trans ((hw _ _).1 e2)
      rw [← Option.some.inj this]
      exact r
    | tail r2 e2 =>
      have := ((hw _ _).1 e).symm.trans ((hw _ _).1 e2)
      rw [← Option.some.inj this] at r2
      exact ih r2

/-- In a well-formed heap a reached object has a non-null `prev_`. -/
theorem Reach_not_head {h : Heap} (hw : WellFormed h) {a b : Nat} (r : Reach h a b) :
    ¬ IsHead h b := by
  intro hb
  unfold IsHead at hb
  cases r with
  | single e =>
    rw [(hw _ _).1 e] at hb
    cases hb
  | tail _ e =>
    rw [(hw _ _).1 e] at hb
    cases hb

/-- In a well-formed heap every object is reached from at most one head. -/
theorem WellFormed_one_head {h : Heap} (hw : WellFormed h) {a b n : Nat}
    (ha : IsHead h a) (hb : IsHead h b) (ra : Reach h a n) (rb : Reach h b n) : a = b := by
  rcases Reach_common hw ra rb with e | r | r
  · exact e
  · exact absurd hb (Reach_not_head hw r)
  · exact absurd ha (Reach_not_head hw r)

/-- C4 as stated fails: after `2.Link(0)` and `2.Link(1)`, issued from the
heap of unlinked objects, the node `2` is reached from both heads `0` and
`1`. -/
theorem membership_any_sequence_counterexample :
    ¬ ∀ (ops : List ListOp) (n a b : Nat),
      IsHead (runOps emptyHeap ops) a → IsHead (runOps emptyHeap ops) b →
      Reach (runOps emptyHeap ops) a n → Reach (runOps emptyHeap ops) b n → a = b := by
  intro hall
  have := hall [.link 2 0, .link 2 1] 2 0 1 (by decide) (by decide)
    (Reach.single (by decide)) (Reach.single (by decide))
  exact absurd this (by decide)

/-- C4, amended: starting from a well-formed heap, after any sequence of
`Link` and `Unlink` calls in which every `Link` is called on an object that is
unlinked at that time, every object is reached by `next_` links from at most
one list head. -/
theorem membership_at_most_one_list (h : Heap) (ops : List ListOp)
    (hw : WellFormed h) (hd : LinksUnlinkedOnly h ops) (n a b : Nat)
    (ha : IsHead (runOps h ops) a) (hb : IsHead (runOps h ops) b)
    (ra : Reach (runOps h ops) a n) (rb : Reach (runOps h ops) b n) : a = b :=
  WellFormed_one_head (runOps_wellFormed ops h hw hd) ha hb ra rb

/-- C4, amended, at the calls `2.Link(0)`, `2.Unlink()`, `2.Link(1)`,
`3.Link(1)`: the node `2` ends in the list of head `1` only. -/
theorem membership_at_most_one_list_witness :
    LinksUnlinkedOnly emptyHeap [.link 2 0, .unlink 2, .link 2 1, .link 3 1] ∧
    Reach (runOps emptyHeap [.link 2 0, .unlink 2, .link 2 1, .link 3 1]) 1 2 ∧
    ¬ Reach (runOps emptyHeap [.link 2 0, .unlink 2, .link 2 1, .link 3 1]) 0 2 := by
  have r : Reach (runOps emptyHeap [.link 2 0, .unlink 2, .link 2 1, .link 3 1]) 1 2 :=
    Reach.tail (Reach.single (b := 3) (by decide)) (by decide)
  refine ⟨by decide, r, fun r0 => ?_⟩
  have := membership_at_most_one_list emptyHeap [.link 2 0, .unlink 2, .link 2 1, .link 3 1]
    emptyHeap_wellFormed (by decide) 2 0 1 (by decide) (by decide) r0 r
  exact absurd this (by decide)

/-! ### C5: `FinalizeAll` empties the list -/

/-- With enough fuel `FinalizeAll` calls `Finalize` on the elements of a
well-formed list from first to last and stops at the empty list, when every
`Finalize` removes its own object from the list and nothing else. -/
theorem FinalizeAll_spec {σ : Type} (heapOf : σ → Heap) (Finalize : Nat → σ → σ) (L : Nat)
    (hfin : ∀ s ys x, IsList (heapOf s) L ys → x ∈ ys →
      IsList (heapOf (Finalize x s)) L (ys.erase x)) :
    ∀ (xs : List Nat) (s : σ) (fuel : Nat), IsList (heapOf s) L xs → xs.length < fuel →
      ∃ s2, FinalizeAll heapOf Finalize L fuel s = some (s2, xs) ∧ IsList (heapOf s2) L []
  | [], s, fuel, hl, hf => by
    obtain ⟨f, rfl⟩ : ∃ f, fuel = f + 1 := ⟨fuel - 1, by omega⟩
    have hnone : (heapOf s L).next_ = none := by simpa [Chain] using hl.chain
    exact ⟨s, by simp [FinalizeAll, hnone], hl⟩
  | x :: rest, s, fuel, hl, hf => by
    obtain ⟨f, rfl⟩ : ∃ f, fuel = f + 1 := ⟨fuel - 1, by omega⟩
    have hx : (heapOf s L).next_ = some x := hl.chain.1
    have hl2 := hfin s (x :: rest) x hl (List.mem_cons_self _ _)
    rw [List.erase_cons_head] at hl2
    have hlen : rest.length < f := by
      simp only [List.length_cons] at hf
      omega
    obtain ⟨s2, h2, h3⟩ := FinalizeAll_spec heapOf Finalize L hfin rest (Finalize x s) f hl2 hlen
    exact ⟨s2, by simp [FinalizeAll, hx, h2], h3⟩

/-- C5: for a well-formed list with element sequence `xs` where the `Finalize`
of every element unlinks the object it is called on and links nothing new,
`FinalizeAll(list)` terminates (every fuel above the length of `xs` is enough),
calls `Finalize` on exactly the elements `xs` in head-to-tail order, each one
once, and leaves `list->next_ == nullptr`. -/
theorem FinalizeAll_finalizes_each_once {σ : Type} (heapOf : σ → Heap)
    (Finalize : Nat → σ → σ) (L : Nat) (s : σ) (xs : List Nat)
    (hfin : ∀ s ys x, IsList (heapOf s) L ys → x ∈ ys →
      IsList (heapOf (Finalize x s)) L (ys.erase x))
    (hl : IsList (heapOf s) L xs) (fuel : Nat) (hfuel : xs.length < fuel) :
    ∃ s2, FinalizeAll heapOf Finalize L fuel s = some (s2, xs) ∧
      (heapOf s2 L).next_ = none ∧ ∀ x, x ∈ xs → xs.count x = 1 := by
  obtain ⟨s2, h2, h3⟩ := FinalizeAll_spec heapOf Finalize L hfin xs s fuel hl hfuel
  refine ⟨s2, h2, by simpa [Chain] using h3.chain, ?_⟩
  intro x hx
  exact List.count_eq_one_of_mem hl.nodup hx

/-- C5 at the list `0 → 1 → 2` with `Finalize` being `Unlink`. -/
theorem FinalizeAll_finalizes_each_once_witness :
    ∃ s2, FinalizeAll id (fun x h => Unlink h x) 0 3
        (heapOfTable [(0, some 1, none), (1, some 2, some 0), (2, none, some 1)]) =
          some (s2, [1, 2]) ∧
      (s2 0).next_ = none ∧ ∀ x, x ∈ [1, 2] → [1, 2].count x = 1 :=
  FinalizeAll_finalizes_each_once id (fun x h => Unlink h x) 0
    (heapOfTable [(0, some 1, none), (1, some 2, some 0), (2, none, some 1)]) [1, 2]
    (fun _ _ _ hl hx => Unlink_isList hl hx) (by decide) 3 (by decide)

/-! ### C6: `EnqueueFinalizer` -/

/-- C6: `EnqueueFinalizer(f)` yields the pending set with `f` added: `f` is
pending afterwards, membership of every other entry is unchanged, an already
pending `f` leaves the environment unchanged, enqueueing twice equals
enqueueing once, and `f` occurs exactly once in the set. -/
theorem EnqueueFinalizer_adds (env : JSVM_Env__) (f : Nat) :
    (env.EnqueueFinalizer f).pending_finalizers = insert f env.pending_finalizers ∧
    f ∈ (env.EnqueueFinalizer f).pending_finalizers ∧
    (∀ g, g ≠ f →
      (g ∈ (env.EnqueueFinalizer f).pending_finalizers ↔ g ∈ env.pending_finalizers)) ∧
    (f ∈ env.pending_finalizers → env.EnqueueFinalizer f = env) ∧
    (env.EnqueueFinalizer f).EnqueueFinalizer f = env.EnqueueFinalizer f ∧
    (env.EnqueueFinalizer f).pending_finalizers.val.count f = 1 ∧
    (env.EnqueueFinalizer f).pending_finalizers.card =
      if f ∈ env.pending_finalizers then env.pending_finalizers.card
      else env.pending_finalizers.card + 1 := by
  refine ⟨rfl, by simp [JSVM_Env__.EnqueueFinalizer], ?_, ?_, ?_, ?_, ?_⟩
  · intro g hg
    simp [JSVM_Env__.EnqueueFinalizer, hg]
  · intro hf
    simp [JSVM_Env__.EnqueueFinalizer, Finset.insert_eq_of_mem hf]
  · simp [JSVM_Env__.EnqueueFinalizer]
  · exact Multiset.count_eq_one_of_mem (Finset.nodup _) (by simp [JSVM_Env__.EnqueueFinalizer])
  · by_cases hf : f ∈ env.pending_finalizers
    · simp [JSVM_Env__.EnqueueFinalizer, hf]
    · simp [JSVM_Env__.EnqueueFinalizer, hf]

/-- C6 at the pending set `{4}`, enqueueing `4` again. -/
theorem EnqueueFinalizer_adds_witness :
    ((JSVM_Env__.create 8).EnqueueFinalizer 4).EnqueueFinalizer 4 =
      (JSVM_Env__.create 8).EnqueueFinalizer 4 :=
  (EnqueueFinalizer_adds ((JSVM_Env__.create 8).EnqueueFinalizer 4) 4).2.2.2.1
    (by decide)

/-! ### C7: `DequeueFinalizer` -/

/-- C7: `DequeueFinalizer(f)` yields the pending set without `f`: `f` is not
pending afterwards however many times it was enqueued before, membership of
every other entry is unchanged, dequeueing an `f` that is not pending changes
nothing, and enqueue followed by dequeue restores an environment in which `f`
was not pending. -/
theorem DequeueFinalizer_removes (env : JSVM_Env__) (f : Nat) :
    (env.DequeueFinalizer f).pending_finalizers = env.pending_finalizers.erase f ∧
    f ∉ (env.DequeueFinalizer f).pending_finalizers ∧
    (∀ k : Nat,
      f ∉ (((fun e : JSVM_Env__ => e.EnqueueFinalizer f)^[k] env).DequeueFinalizer
        f).pending_finalizers) ∧
    (∀ g, g ≠ f →
      (g ∈ (env.DequeueFinalizer f).pending_finalizers ↔ g ∈ env.pending_finalizers)) ∧
    (f ∉ env.pending_finalizers → env.DequeueFinalizer f = env) ∧
    (f ∉ env.pending_finalizers → (env.EnqueueFinalizer f).DequeueFinalizer f = env) := by
  refine ⟨rfl, by simp [JSVM_Env__.DequeueFinalizer], ?_, ?_, ?_, ?_⟩
  · intro k
    simp [JSVM_Env__.DequeueFinalizer]
  · intro g hg
    simp [JSVM_Env__.DequeueFinalizer, hg]
  · intro hf
    simp [JSVM_Env__.DequeueFinalizer, Finset.erase_eq_of_not_mem hf]
  · intro hf
    simp [JSVM_Env__.DequeueFinalizer, JSVM_Env__.EnqueueFinalizer, Finset.erase_insert hf]

/-- C7 at the empty pending set: enqueue `4`, then dequeue `4`. -/
theorem DequeueFinalizer_removes_witness :
    ((JSVM_Env__.create 8).EnqueueFinalizer 4).DequeueFinalizer 4 = JSVM_Env__.create 8 :=
  (DequeueFinalizer_removes (JSVM_Env__.create 8) 4).2.2.2.2.2 (by decide)

/-! ### C8: the guard against engine calls from a GC finalizer -/

/-- C8 as stated fails: with `JSVM_VERSION_EXPERIMENTAL = 2147483647`, an
environment of `module_api_version` 8 in which `in_gc_finalizer` is true passes
`CHECK_ENV_NOT_IN_GC` and the guarded call is executed. -/
theorem CheckGCAccess_every_version_counterexample :
    ¬ ∀ (JSVM_VERSION_EXPERIMENTAL : Int) (env : JSVM_Env__), env.in_gc_finalizer = true →
      ∃ message, CHECK_ENV_NOT_IN_GC JSVM_VERSION_EXPERIMENTAL (some env) = .fatal message := by
  intro hall
  obtain ⟨message, hm⟩ := hall 2147483647
    { JSVM_Env__.create 8 with in_gc_finalizer := true } rfl
  have hp : CHECK_ENV_NOT_IN_GC 2147483647
      (some { JSVM_Env__.create 8 with in_gc_finalizer := true }) = .proceeds := by decide
  rw [hp] at hm
  cases hm

/-- C8, amended: in an environment in which `in_gc_finalizer` is true, a call
guarded by `CHECK_ENV_NOT_IN_GC` / `CheckGCAccess` is reported as a fatal error,
and not executed, exactly when `module_api_version` is
`JSVM_VERSION_EXPERIMENTAL`; for every other `module_api_version` the guard
reports nothing and the call is executed. -/
theorem CheckGCAccess_fatal_iff_experimental (JSVM_VERSION_EXPERIMENTAL : Int)
    (env : JSVM_Env__) (hgc : env.in_gc_finalizer = true) :
    (env.module_api_version = JSVM_VERSION_EXPERIMENTAL →
      env.CheckGCAccess JSVM_VERSION_EXPERIMENTAL = some gcAccessMessage ∧
      CHECK_ENV_NOT_IN_GC JSVM_VERSION_EXPERIMENTAL (some env) = .fatal gcAccessMessage) ∧
    (env.module_api_version ≠ JSVM_VERSION_EXPERIMENTAL →
      env.CheckGCAccess JSVM_VERSION_EXPERIMENTAL = none ∧
      CHECK_ENV_NOT_IN_GC JSVM_VERSION_EXPERIMENTAL (some env) = .proceeds) := by
  constructor
  · intro hv
    simp [CHECK_ENV_NOT_IN_GC, JSVM_Env__.CheckGCAccess, hv, hgc]
  · intro hv
    simp [CHECK_ENV_NOT_IN_GC, JSVM_Env__.CheckGCAccess, hv]

/-- C8, amended, at an experimental environment inside a GC finalizer. -/
theorem CheckGCAccess_fatal_iff_experimental_witness :
    CHECK_ENV_NOT_IN_GC 2147483647
      (some { JSVM_Env__.create 2147483647 with in_gc_finalizer := true }) =
        .fatal gcAccessMessage :=
  ((CheckGCAccess_fatal_iff_experimental 2147483647
    { JSVM_Env__.create 2147483647 with in_gc_finalizer := true } rfl).1 rfl).2

/-! ### C9: the finalize callback runs exactly once -/

/-- A finalized object that ran its callback once is in the at-most-once state. -/
theorem RanOnce.ranAtMostOnce {r c : Nat} {w : FinalizerState} (h : RanOnce r c w) :
    RanAtMostOnce r c w :=
  ⟨h.1, Or.inr h.2⟩

/-- C10 as stated fails: `RefBase::New(env, initialRefcount, ...)` takes the
count a reference starts with, and a user-owned reference created with count 1
shows count 2 after one `Ref`, while the number of `Ref` calls minus the number
of `Unref` calls is 1. -/
theorem RefBase_count_counterexample :
    ¬ ∀ (r : RefBase) (cs : List RefCall), r.ownership_ = .kUserland →
      ∀ r2 outs, runCalls cs r = .ok (r2, outs) →
        (r2.RefCount : Int) = (countRef cs : Int) - (countUnref cs : Int) := by
  intro hall
  have := hall ⟨1, .kUserland, false, false⟩ [.ref] rfl ⟨2, .kUserland, false, false⟩ [2] rfl
  revert this
  decide

theorem countRef_ref (cs : List RefCall) : countRef (.ref :: cs) = countRef cs + 1 := by
  simp [countRef]

theorem countRef_unref (cs : List RefCall) : countRef (.unref :: cs) = countRef cs := by
  simp [countRef]

theorem countUnref_ref (cs : List RefCall) : countUnref (.ref :: cs) = countUnref cs := by
  simp [countUnref]

theorem countUnref_unref (cs : List RefCall) : countUnref (.unref :: cs) = countUnref cs + 1 := by
  simp [countUnref]

/-- On a user-owned reference every sequence of calls during which the count
neither is decremented at 0 nor reaches `2 ^ 32` succeeds, returns the running
counts and leaves everything but the count unchanged. -/
theorem runCalls_userland : ∀ (cs : List RefCall) (r : RefBase),
    r.ownership_ = .kUserland →
    (∀ k, k ≤ cs.length →
      countUnref (cs.take k) ≤ r.refcount_ + countRef (cs.take k) ∧
      r.refcount_ + countRef (cs.take k) < 2 ^ 32 + countUnref (cs.take k)) →
    ∃ r2 outs, runCalls cs r = .ok (r2, outs) ∧ outs.length = cs.length ∧
      (∀ k, k < cs.length → (outs.getD k 0 : Int) =
        (r.refcount_ : Int) + countRef (cs.take (k + 1)) - countUnref (cs.take (k + 1))) ∧
      (r2.refcount_ : Int) = (r.refcount_ : Int) + countRef cs - countUnref cs ∧
      r2.destroyed = r.destroyed ∧ r2.ownership_ = .kUserland
  | [], r, hown, _ => ⟨r, [], rfl, rfl, by simp, by simp [countRef, countUnref], rfl, hown⟩
  | .ref :: cs, r, hown, hrange => by
    have h1 := hrange 1 (by simp)
    rw [List.take_succ_cons, List.take_zero, countRef_ref, countUnref_ref] at h1
    simp only [countRef, countUnref, List.count_nil] at h1
    have hmod : (r.refcount_ + 1) % 2 ^ 32 = r.refcount_ + 1 := Nat.mod_eq_of_lt (by omega)
    have hrange2 : ∀ k, k ≤ cs.length →
        countUnref (cs.take k) ≤ r.Ref.1.refcount_ + countRef (cs.take k) ∧
        r.Ref.1.refcount_ + countRef (cs.take k) < 2 ^ 32 + countUnref (cs.take k) := by
      intro k hk
      have := hrange (k + 1) (by simpa using hk)
      rw [List.take_succ_cons, countUnref_ref, countRef_ref] at this
      simp only [RefBase.Ref, hmod]
      omega
    obtain ⟨r2, outs, h1, h2, h3, h4, h5, h6⟩ := runCalls_userland cs r.Ref.1 hown hrange2
    refine ⟨r2, r.Ref.2 :: outs, by simp [runCalls, Interface.Ref, h1], by simp [h2],
      ?_, ?_, h5, h6⟩
    · intro k hk
      cases k with
      | zero =>
        simp only [List.getD_cons_zero, RefBase.Ref, hmod, zero_add, List.take_succ_cons,
          List.take_zero, countRef_ref, countUnref_ref]
        simp only [countRef, countUnref, List.count_nil]
        push_cast
        ring
      | succ k =>
        have := h3 k (by simpa using hk)
        rw [List.take_succ_cons, countRef_ref, countUnref_ref, List.getD_cons_succ, this]
        simp only [RefBase.Ref, hmod]
        push_cast
        ring
    · rw [h4, countRef_ref, countUnref_ref]
      simp only [RefBase.Ref, hmod]
      push_cast
      ring
  | .unref :: cs, r, hown, hrange => by
    have h1 := hrange 1 (by simp)
    rw [List.take_succ_cons, List.take_zero, countRef_unref, countUnref_unref] at h1
    simp only [countRef, countUnref, List.count_nil] at h1
    have hgt : 0 < r.refcount_ := by omega
    have hne : r.refcount_ ≠ 0 := by omega
    have hun : Interface.Unref r = .ok (⟨r.refcount_ - 1, r.ownership_, r.has_live_weak_handle,
        r.destroyed⟩, r.refcount_ - 1) := by
      simp [Interface.Unref, RefBase.Unref, hne, hown]
    have hrange2 : ∀ k, k ≤ cs.length →
        countUnref (cs.take k) ≤ (r.refcount_ - 1) + countRef (cs.take k) ∧
        (r.refcount_ - 1) + countRef (cs.take k) < 2 ^ 32 + countUnref (cs.take k) := by
      intro k hk
      have := hrange (k + 1) (by simpa using hk)
      rw [List.take_succ_cons, countUnref_unref, countRef_unref] at this
      omega
    obtain ⟨r2, outs, h1, h2, h3, h4, h5, h6⟩ := runCalls_userland cs
      ⟨r.refcount_ - 1, r.ownership_, r.has_live_weak_handle, r.destroyed⟩ hown hrange2
    refine ⟨r2, (r.refcount_ - 1) :: outs, by simp [runCalls, hun, h1], by simp [h2],
      ?_, ?_, h5, h6⟩
    · intro k hk
      cases k with
      | zero =>
        simp only [List.getD_cons_zero, zero_add, List.take_succ_cons, List.take_zero,
          countRef_unref, countUnref_unref]
        simp only [countRef, countUnref, List.count_nil]
        push_cast [Nat.cast_sub hgt]
        ring
      | succ k =>
        have := h3 k (by simpa using hk)
        rw [List.take_succ_cons, countRef_unref, countUnref_unref, List.getD_cons_succ, this]
        push_cast [Nat.cast_sub hgt]
        ring
    · rw [h4, countRef_unref, countUnref_unref]
      push_cast [Nat.cast_sub hgt]
      ring

/-- C10, amended: for a user-owned reference created with count `c0` and every
sequence of `Ref` and `Unref` calls in which no `Unref` is called at count 0 and
the count stays below `2 ^ 32`, every call succeeds and returns `c0` plus the
number of `Ref` calls minus the number of `Unref` calls made so far (so `Ref`
returns the incremented and `Unref` the decremented count), the observed count
after every leading part of the sequence is `c0` plus its `Ref` calls minus its
`Unref` calls, and the reference is never auto-destroyed, also at count 0.
The hypothesis says that the running count `c0` plus `Ref` calls minus `Unref`
calls lies between 0 and `2 ^ 32 - 1` after every leading part. -/
theorem RefBase_count_tracks_calls (r : RefBase) (cs : List RefCall)
    (hown : r.ownership_ = .kUserland) (hlive : r.destroyed = false)
    (hrange : ∀ k, k ≤ cs.length →
      countUnref (cs.take k) ≤ r.refcount_ + countRef (cs.take k) ∧
      r.refcount_ + countRef (cs.take k) < 2 ^ 32 + countUnref (cs.take k)) :
    (∃ r2 outs, runCalls cs r = .ok (r2, outs) ∧ outs.length = cs.length ∧
      ∀ k, k < cs.length → (outs.getD k 0 : Int) =
        (r.refcount_ : Int) + countRef (cs.take (k + 1)) - countUnref (cs.take (k + 1))) ∧
    (∀ k, k ≤ cs.length → ∃ r2 outs, runCalls (cs.take k) r = .ok (r2, outs) ∧
      (r2.RefCount : Int) =
        (r.refcount_ : Int) + countRef (cs.take k) - countUnref (cs.take k) ∧
      r2.destroyed = false) ∧
    (r.refcount_ + 1 < 2 ^ 32 → Interface.Ref r = .ok r.Ref ∧ r.Ref.2 = r.refcount_ + 1 ∧
      r.Ref.1.RefCount = r.refcount_ + 1 ∧ r.Ref.1.destroyed = false) ∧
    (0 < r.refcount_ → ∃ r1, Interface.Unref r = .ok (r1, r.refcount_ - 1) ∧
      r1.RefCount = r.refcount_ - 1 ∧ r1.destroyed = false) := by
  refine ⟨?_, ?_, ?_, ?_⟩
  · obtain ⟨r2, outs, h1, h2, h3, _⟩ := runCalls_userland cs r hown hrange
    exact ⟨r2, outs, h1, h2, h3⟩
  · intro k hk
    have hrange2 : ∀ j, j ≤ (cs.take k).length →
        countUnref ((cs.take k).take j) ≤ r.refcount_ + countRef ((cs.take k).take j) ∧
        r.refcount_ + countRef ((cs.take k).take j) <
          2 ^ 32 + countUnref ((cs.take k).take j) := by
      intro j hj
      have hjk : j ≤ k := by
        rw [List.length_take] at hj
        omega
      rw [List.take_take, Nat.min_eq_left hjk]
      exact hrange j (by omega)
    obtain ⟨r2, outs, h1, _, _, h4, h5, _⟩ := runCalls_userland (cs.take k) r hown hrange2
    exact ⟨r2, outs, h1, h4, h5.trans hlive⟩
  · intro hlt
    have hmod : (r.refcount_ + 1) % 2 ^ 32 = r.refcount_ + 1 := Nat.mod_eq_of_lt hlt
    exact ⟨rfl, hmod, hmod, hlive⟩
  · intro hgt
    have hne : r.refcount_ ≠ 0 := by omega
    exact ⟨⟨r.refcount_ - 1, r.ownership_, r.has_live_weak_handle, r.destroyed⟩,
      by simp [Interface.Unref, RefBase.Unref, hne, hown], rfl, hlive⟩

/-- C10, amended, at a user-owned reference created with the largest count
`2 ^ 32 - 1` and the calls `Unref`, `Ref`, `Unref`, `Unref`: the count passes
through `2 ^ 32 - 2`, `2 ^ 32 - 1`, `2 ^ 32 - 2`, `2 ^ 32 - 3`. -/
theorem RefBase_count_tracks_calls_witness :
    ∃ r2 outs, runCalls [.unref, .ref, .unref, .unref]
        ⟨4294967295, .kUserland, false, false⟩ = .ok (r2, outs) ∧
      outs.length = [RefCall.unref, .ref, .unref, .unref].length ∧
      ∀ k, k < [RefCall.unref, .ref, .unref, .unref].length → (outs.getD k 0 : Int) =
        ((4294967295 : Nat) : Int) +
            countRef ([RefCall.unref, .ref, .unref, .unref].take (k + 1)) -
          countUnref ([RefCall.unref, .ref, .unref, .unref].take (k + 1)) :=
  (RefBase_count_tracks_calls ⟨4294967295, .kUserland, false, false⟩
    [.unref, .ref, .unref, .unref] rfl rfl (by decide)).1

/-! ### C13: argument validation -/

/-- C13: for a non-null environment and every argument, `CHECK_ARG` makes the
API function return `JSVM_INVALID_ARG` with `JSVM_INVALID_ARG` recorded as
`env->last_error.errorCode` if and only if the argument is null; for a non-null
argument the environment, and so the last error, is unchanged and the function
continues; `CHECK_ENV` returns `JSVM_INVALID_ARG` for a null environment and
lets the function continue for a non-null one. -/
theorem CHECK_ARG_invalid_iff_null (env : JSVM_Env__) (arg : Option Nat) :
    (((CHECK_ARG env arg).2 = .returns .JSVM_INVALID_ARG ∧
        (CHECK_ARG env arg).1.last_error.errorCode = .JSVM_INVALID_ARG) ↔ arg = none) ∧
    (arg = none → CHECK_ARG env arg =
      ({ env with last_error := ⟨env.last_error.errorMessage, none, 0, .JSVM_INVALID_ARG⟩ },
        .returns .JSVM_INVALID_ARG)) ∧
    (arg ≠ none → CHECK_ARG env arg = (env, .proceeds)) ∧
    CHECK_ENV none = .returns .JSVM_INVALID_ARG ∧
    CHECK_ENV (some env) = .proceeds := by
  cases arg with
  | none => simp [CHECK_ARG, RETURN_STATUS_IF_FALSE, jsvm_set_last_error, CHECK_ENV]
  | some a => simp [CHECK_ARG, RETURN_STATUS_IF_FALSE, CHECK_ENV]

/-- C13 at a fresh environment and a null argument. -/
theorem CHECK_ARG_invalid_iff_null_witness :
    CHECK_ARG (JSVM_Env__.create 8) none =
      ({ JSVM_Env__.create 8 with last_error := ⟨none, none, 0, .JSVM_INVALID_ARG⟩ },
        .returns .JSVM_INVALID_ARG) :=
  (CHECK_ARG_invalid_iff_null (JSVM_Env__.create 8) none).2.1 rfl

/-! ### C14: `Finalizer` holds its arguments -/

/-- C14: a `Finalizer` built from `(env, cb, d, h)` returns `cb` from
`callback()`, `d` from `data()` and `h` from `hint()`, each accessor leaves the
object unchanged, and the omitted arguments of `Finalizer::New` are null. -/
theorem Finalizer_holds_arguments (env cb d h : Option Nat) :
    (Finalizer.New env cb d h).callback = (Finalizer.New env cb d h, cb) ∧
    (Finalizer.New env cb d h).data = (Finalizer.New env cb d h, d) ∧
    (Finalizer.New env cb d h).hint = (Finalizer.New env cb d h, h) ∧
    (Finalizer.New env cb d h).env_ = env ∧
    Finalizer.New env cb d = Finalizer.New env cb d none ∧
    Finalizer.New env cb = Finalizer.New env cb none none ∧
    Finalizer.New env = Finalizer.New env none none none :=
  ⟨rfl, rfl, rfl, rfl, rfl, rfl, rfl⟩

/-! ### C15: `Link` and `Unlink` keep the lists well formed -/

/-- In a well-formed heap an object is the `next_` of at most one object. -/
theorem WellFormed_next_injective {h : Heap} (hw : WellFormed h) {a b n : Nat}
    (ha : (h a).next_ = some n) (hb : (h b).next_ = some n) : a = b :=
  Option.some.inj (((hw a n).1 ha).symm.trans ((hw b n).1 hb))

/-- C15: in a heap where every non-null `next_` is mirrored by the `prev_` of
its target and every non-null `prev_` by the `next_` of its target, a `Link`
called on an unlinked node and every `Unlink` keep that property; so does
every sequence of calls whose `Link`s are called on unlinked nodes, and then no
node is the successor of two objects or reached from two list heads. -/
theorem Link_Unlink_preserve_wellFormed (h : Heap) (hw : WellFormed h) :
    (∀ n L, Unlinked h n → WellFormed (Link h n L)) ∧
    (∀ n, WellFormed (Unlink h n)) ∧
    (∀ ops, LinksUnlinkedOnly h ops →
      WellFormed (runOps h ops) ∧
      (∀ a b n, (runOps h ops a).next_ = some n → (runOps h ops b).next_ = some n → a = b) ∧
      (∀ a b n, IsHead (runOps h ops) a → IsHead (runOps h ops) b →
        Reach (runOps h ops) a n → Reach (runOps h ops) b n → a = b)) := by
  refine ⟨fun n L hn => Link_wellFormed n L hw hn, fun n => Unlink_wellFormed n hw, ?_⟩
  intro ops hd
  have hw2 := runOps_wellFormed ops h hw hd
  exact ⟨hw2, fun a b n ha hb => WellFormed_next_injective hw2 ha hb,
    fun a b n ha hb ra rb => WellFormed_one_head hw2 ha hb ra rb⟩

/-- C15 at the heap of unlinked objects: `2.Link(0)` keeps it well formed. -/
theorem Link_Unlink_preserve_wellFormed_witness :
    Unlinked emptyHeap 2 ∧ WellFormed (Link emptyHeap 2 0) :=
  ⟨by decide, (Link_Unlink_preserve_wellFormed emptyHeap emptyHeap_wellFormed).1 2 0
    (by decide)⟩

/-! ### C16: `FinalizeAll` makes progress only through `Finalize` -/

/-- The first element stays in place through any number of `Finalize` calls
that keep it in place. -/
theorem iterate_Finalize_head {σ : Type} (heapOf : σ → Heap) (Finalize : Nat → σ → σ)
    (L x : Nat)
    (hkeep : ∀ s, (heapOf s L).next_ = some x → (heapOf (Finalize x s) L).next_ = some x) :
    ∀ (k : Nat) (s : σ), (heapOf s L).next_ = some x →
      (heapOf ((Finalize x)^[k] s) L).next_ = some x
  | 0, _, hs => hs
  | k + 1, s, hs => by
    rw [Function.iterate_succ_apply]
    exact iterate_Finalize_head heapOf Finalize L x hkeep k (Finalize x s) (hkeep s hs)

/-- No amount of fuel lets `FinalizeAll` return when `Finalize` keeps the first
element in place. -/
theorem FinalizeAll_none {σ : Type} (heapOf : σ → Heap) (Finalize : Nat → σ → σ)
    (L x : Nat)
    (hkeep : ∀ s, (heapOf s L).next_ = some x → (heapOf (Finalize x s) L).next_ = some x) :
    ∀ (fuel : Nat) (s : σ), (heapOf s L).next_ = some x →
      FinalizeAll heapOf Finalize L fuel s = none
  | 0, _, _ => rfl
  | fuel + 1, s, hs => by
    simp only [FinalizeAll, hs]
    rw [FinalizeAll_none heapOf Finalize L x hkeep fuel (Finalize x s) (hkeep s hs)]

/-- C16: for a non-empty list whose first element `x` has a `Finalize` that
leaves the list unchanged (it is enough that it keeps `x` first, as the default
no-op `RefTracker::Finalize` does), the loop guard `list->next_ != nullptr`
holds after any number of iterations and `FinalizeAll` does not return, with
whatever fuel. -/
theorem FinalizeAll_never_terminates {σ : Type} (heapOf : σ → Heap)
    (Finalize : Nat → σ → σ) (L x : Nat) (s : σ)
    (hfirst : (heapOf s L).next_ = some x)
    (hkeep : ∀ s, (heapOf s L).next_ = some x → (heapOf (Finalize x s) L).next_ = some x) :
    (∀ k, (heapOf ((Finalize x)^[k] s) L).next_ ≠ none) ∧
    (∀ fuel, FinalizeAll heapOf Finalize L fuel s = none) := by
  constructor
  · intro k
    rw [iterate_Finalize_head heapOf Finalize L x hkeep k s hfirst]
    simp
  · intro fuel
    exact FinalizeAll_none heapOf Finalize L x hkeep fuel s hfirst

/-- C16 at the list `0 → 1` with the default `RefTracker::Finalize` and fuel
1000. -/
theorem FinalizeAll_never_terminates_witness :
    FinalizeAll id RefTracker.Finalize 0 1000
      (heapOfTable [(0, some 1, none), (1, none, some 0)]) = none :=
  (FinalizeAll_never_terminates id RefTracker.Finalize 0 1
    (heapOfTable [(0, some 1, none), (1, none, some 0)]) (by decide)
    (fun _ hs => hs)).2 1000

/-! ### C11: the mode of the engine handle -/

/-- The loop of `FinalizeAll` with an invariant: when every `Finalize` call on
the first element of the list removes that element and keeps the invariant,
`FinalizeAll` returns with the list empty and the invariant kept. -/
theorem FinalizeAll_inv {σ : Type} (heapOf : σ → Heap) (Finalize : Nat → σ → σ) (L : Nat)
    (I : σ → List Nat → Prop)
    (hstep : ∀ s x rest, IsList (heapOf s) L (x :: rest) → I s (x :: rest) →
      IsList (heapOf (Finalize x s)) L rest ∧ I (Finalize x s) rest) :
    ∀ (xs : List Nat) (s : σ) (fuel : Nat), IsList (heapOf s) L xs → I s xs →
      xs.length < fuel →
      ∃ s2, FinalizeAll heapOf Finalize L fuel s = some (s2, xs) ∧
        IsList (heapOf s2) L [] ∧ I s2 []
  | [], s, fuel, hl, hi, hf => by
    obtain ⟨f, rfl⟩ : ∃ f, fuel = f + 1 := ⟨fuel - 1, by omega⟩
    have hnone : (heapOf s L).next_ = none := by simpa [Chain] using hl.chain
    exact ⟨s, by simp [FinalizeAll, hnone], hl, hi⟩
  | x :: rest, s, fuel, hl, hi, hf => by
    obtain ⟨f, rfl⟩ : ∃ f, fuel = f + 1 := ⟨fuel - 1, by omega⟩
    have hx : (heapOf s L).next_ = some x := hl.chain.1
    obtain ⟨hl2, hi2⟩ := hstep s x rest hl hi
    have hlen : rest.length < f := by
      simp only [List.length_cons] at hf
      omega
    obtain ⟨s2, h2, h3, h4⟩ :=
      FinalizeAll_inv heapOf Finalize L I hstep rest (Finalize x s) f hl2 hi2 hlen
    exact ⟨s2, by simp [FinalizeAll, hx, h2], h3, h4⟩

/-- Objects outside a well-formed list keep their links when an element of
the list is unlinked. -/
theorem Unlink_outside {h : Heap} {L n : Nat} {xs : List Nat}
    (hl : IsList h L xs) (hn : n ∈ xs) (m : Nat) (hmL : m ≠ L) (hmx : m ∉ xs) :
    Unlink h n m = h m := by
  obtain ⟨q, hq, hqm⟩ := Chain_prev_mem xs L n hl.chain hn
  refine Unlink_frame h n m (fun e => hmx (e ▸ hn)) ?_ ?_
  · rw [hq]
    intro e
    cases e
    rcases List.mem_cons.mp hqm with e | hqm
    · exact hmL e
    · exact hmx hqm
  · intro e
    exact hmx (Chain_next_mem xs L n m hl.chain (List.mem_cons_of_mem _ hn) e)

/-- Unlinking an element of one well-formed list leaves a separate
well-formed list as it is. -/
theorem Unlink_isList_other {h : Heap} {L M n : Nat} {xs ys : List Nat}
    (hl : IsList h L xs) (hn : n ∈ xs) (hm : IsList h M ys)
    (hML : M ≠ L) (hMx : M ∉ xs) (hy : ∀ y, y ∈ ys → y ≠ L ∧ y ∉ xs) :
    IsList (Unlink h n) M ys := by
  have hsame : ∀ m, m ∈ M :: ys → Unlink h n m = h m := by
    intro m hmem
    rcases List.mem_cons.mp hmem with e | hmy
    · subst e
      exact Unlink_outside hl hn m hML hMx
    · exact Unlink_outside hl hn m (hy m hmy).1 (hy m hmy).2
  refine ⟨Chain_congr ys M ?_ ?_ hm.chain, hm.nodup, hm.head_not_mem⟩
  · intro x hx
    rw [hsame x hx]
  · intro x hx
    rw [hsame x (List.mem_cons_of_mem _ hx)]

/-- `Finalize` leaves the environment as it is. -/
theorem Finalize_env (x : Nat) (w : FinalizerState) :
    (TrackedFinalizer.Finalize x w).env = w.env := by
  unfold TrackedFinalizer.Finalize
  split <;> rfl

/-- `Finalize` on an object that is not finalized unlinks it. -/
theorem Finalize_heap (x : Nat) (w : FinalizerState)
    (hx : (w.finalizers x).finalized = false) :
    (TrackedFinalizer.Finalize x w).heap = Unlink w.heap x := by
  unfold TrackedFinalizer.Finalize
  simp [hx]

/-- `Finalize` leaves the finalize state of every other object as it is. -/
theorem Finalize_finalizers_of_ne (x z : Nat) (w : FinalizerState) (hz : z ≠ x) :
    (TrackedFinalizer.Finalize x w).finalizers z = w.finalizers z := by
  unfold TrackedFinalizer.Finalize
  split
  · rfl
  · simp [hz]

/-- The first loop of the teardown: it finalizes the elements of
`finalizing_reflist` in order, leaves that list empty and leaves `reflist` and
its elements as they are. -/
theorem DeleteMe_first_loop (w : FinalizerState) (xs ys : List Nat)
    (hrl : IsList w.heap w.env.reflist ys)
    (hne : w.env.finalizing_reflist ≠ w.env.reflist)
    (hflys : w.env.finalizing_reflist ∉ ys) (hrlxs : w.env.reflist ∉ xs)
    (hdisj : ∀ x, x ∈ xs → x ∉ ys)
    (s : FinalizerState × List (Nat × Option Nat)) (x : Nat) (rest : List Nat)
    (hl : IsList s.1.heap w.env.finalizing_reflist (x :: rest))
    (hi : s.1.env = w.env ∧
      (∀ z, z ∈ x :: rest → z ∈ xs ∧ (s.1.finalizers z).finalized = false) ∧
      (∀ y, y ∈ ys → (s.1.finalizers y).finalized = false) ∧
      IsList s.1.heap w.env.reflist ys ∧
      s.2.map Prod.fst ++ (x :: rest) = xs ∧ (∀ e, e ∈ s.2 → e.1 ∉ ys)) :
    IsList (observedFinalize x s).1.heap w.env.finalizing_reflist rest ∧
    ((observedFinalize x s).1.env = w.env ∧
      (∀ z, z ∈ rest → z ∈ xs ∧ ((observedFinalize x s).1.finalizers z).finalized = false) ∧
      (∀ y, y ∈ ys → ((observedFinalize x s).1.finalizers y).finalized = false) ∧
      IsList (observedFinalize x s).1.heap w.env.reflist ys ∧
      (observedFinalize x s).2.map Prod.fst ++ rest = xs ∧
      (∀ e, e ∈ (observedFinalize x s).2 → e.1 ∉ ys)) := by
  have _ := hrl
  obtain ⟨henv, hzs, hys, hrl2, hlog, hlogy⟩ := hi
  have hxmem : x ∈ x :: rest := List.mem_cons_self _ _
  have hxxs : x ∈ xs := (hzs x hxmem).1
  have hheap : (observedFinalize x s).1.heap = Unlink s.1.heap x :=
    Finalize_heap x s.1 (hzs x hxmem).2
  have hxr : x ∉ rest := (List.nodup_cons.mp hl.nodup).1
  have hsub : ∀ z, z ∈ x :: rest → z ∈ xs := fun z hz => (hzs z hz).1
  refine ⟨?_, ?_, ?_, ?_, ?_, ?_, ?_⟩
  · rw [hheap]
    have := Unlink_isList hl hxmem
    rwa [List.erase_cons_head] at this
  · exact (Finalize_env x s.1).trans henv
  · intro z hz
    have hzx : z ≠ x := fun e => hxr (e ▸ hz)
    refine ⟨(hzs z (List.mem_cons_of_mem _ hz)).1, ?_⟩
    show ((TrackedFinalizer.Finalize x s.1).finalizers z).finalized = false
    rw [Finalize_finalizers_of_ne x z s.1 hzx]
    exact (hzs z (List.mem_cons_of_mem _ hz)).2
  · intro y hy
    have hyx : y ≠ x := fun e => hdisj x hxxs (e ▸ hy)
    show ((TrackedFinalizer.Finalize x s.1).finalizers y).finalized = false
    rw [Finalize_finalizers_of_ne x y s.1 hyx]
    exact hys y hy
  · rw [hheap]
    refine Unlink_isList_other hl hxmem hrl2 (Ne.symm hne) (fun hm => hrlxs (hsub _ hm)) ?_
    intro y hy
    exact ⟨fun e => hflys (e ▸ hy), fun hm => hdisj y (hsub y hm) hy⟩
  · rw [← hlog]
    simp [observedFinalize]
  · intro e he
    simp only [observedFinalize, List.mem_append, List.mem_singleton] at he
    rcases he with he | rfl
    · exact hlogy e he
    · exact hdisj x hxxs

/-- The second loop of the teardown: it finalizes the elements of `reflist`
in order while `finalizing_reflist` stays empty. -/
theorem DeleteMe_second_loop (w : FinalizerState) (xs ys : List Nat)
    (hne : w.env.finalizing_reflist ≠ w.env.reflist)
    (hflys : w.env.finalizing_reflist ∉ ys)
    (s : FinalizerState × List (Nat × Option Nat)) (y : Nat) (rest : List Nat)
    (hl : IsList s.1.heap w.env.reflist (y :: rest))
    (hi : s.1.env = w.env ∧
      (∀ z, z ∈ y :: rest → z ∈ ys ∧ (s.1.finalizers z).finalized = false) ∧
      (s.1.heap w.env.finalizing_reflist).next_ = none ∧
      s.2.map Prod.fst ++ (y :: rest) = xs ++ ys ∧
      (∀ e, e ∈ s.2 → e.1 ∈ ys → e.2 = none)) :
    IsList (observedFinalize y s).1.heap w.env.reflist rest ∧
    ((observedFinalize y s).1.env = w.env ∧
      (∀ z, z ∈ rest → z ∈ ys ∧ ((observedFinalize y s).1.finalizers z).finalized = false) ∧
      ((observedFinalize y s).1.heap w.env.finalizing_reflist).next_ = none ∧
      (observedFinalize y s).2.map Prod.fst ++ rest = xs ++ ys ∧
      (∀ e, e ∈ (observedFinalize y s).2 → e.1 ∈ ys → e.2 = none)) := by
  obtain ⟨henv, hzs, hempty, hlog, hlogy⟩ := hi
  have hymem : y ∈ y :: rest := List.mem_cons_self _ _
  have hheap : (observedFinalize y s).1.heap = Unlink s.1.heap y :=
    Finalize_heap y s.1 (hzs y hymem).2
  have hyr : y ∉ rest := (List.nodup_cons.mp hl.nodup).1
  refine ⟨?_, ?_, ?_, ?_, ?_, ?_⟩
  · rw [hheap]
    have := Unlink_isList hl hymem
    rwa [List.erase_cons_head] at this
  · exact (Finalize_env y s.1).trans henv
  · intro z hz
    have hzy : z ≠ y := fun e => hyr (e ▸ hz)
    refine ⟨(hzs z (List.mem_cons_of_mem _ hz)).1, ?_⟩
    show ((TrackedFinalizer.Finalize y s.1).finalizers z).finalized = false
    rw [Finalize_finalizers_of_ne y z s.1 hzy]
    exact (hzs z (List.mem_cons_of_mem _ hz)).2
  · rw [hheap, Unlink_outside hl hymem w.env.finalizing_reflist hne
      (fun hm => hflys (hzs _ hm).1)]
    exact hempty
  · rw [← hlog]
    simp [observedFinalize]
  · intro e he hey
    simp only [observedFinalize, List.mem_append, List.mem_singleton] at he
    rcases he with he | rfl
    · exact hlogy e he hey
    · show (s.1.heap s.1.env.finalizing_reflist).next_ = none
      rw [henv]
      exact hempty

/-- C12: for an environment whose `finalizing_reflist` and `reflist` are two
separate well-formed lists (both may be non-empty) of objects that are not yet
finalized, the teardown terminates with enough fuel, calls `Finalize` on the
elements of `finalizing_reflist` first and on those of `reflist` afterwards,
each in list order, and at every `Finalize` call on an element of `reflist`
the `finalizing_reflist` is empty; both lists are empty at the end. -/
theorem DeleteMe_finalizing_first (w : FinalizerState) (xs ys : List Nat)
    (hfl : IsList w.heap w.env.finalizing_reflist xs)
    (hrl : IsList w.heap w.env.reflist ys)
    (hne : w.env.finalizing_reflist ≠ w.env.reflist)
    (hflys : w.env.finalizing_reflist ∉ ys) (hrlxs : w.env.reflist ∉ xs)
    (hdisj : ∀ x, x ∈ xs → x ∉ ys)
    (hfx : ∀ x, x ∈ xs → (w.finalizers x).finalized = false)
    (hfy : ∀ y, y ∈ ys → (w.finalizers y).finalized = false)
    (fuel : Nat) (hfuel1 : xs.length < fuel) (hfuel2 : ys.length < fuel) :
    ∃ w2 log, DeleteMe fuel w = some (w2, log) ∧
      log.map Prod.fst = xs ++ ys ∧
      (∀ e, e ∈ log → e.1 ∈ ys → e.2 = none) ∧
      (w2.heap w.env.finalizing_reflist).next_ = none ∧
      (w2.heap w.env.reflist).next_ = none := by
  obtain ⟨s1, h1, hl1, hi1⟩ := FinalizeAll_inv (fun s => s.1.heap) observedFinalize
    w.env.finalizing_reflist
    (fun s zs => s.1.env = w.env ∧
      (∀ z, z ∈ zs → z ∈ xs ∧ (s.1.finalizers z).finalized = false) ∧
      (∀ y, y ∈ ys → (s.1.finalizers y).finalized = false) ∧
      IsList s.1.heap w.env.reflist ys ∧
      s.2.map Prod.fst ++ zs = xs ∧ (∀ e, e ∈ s.2 → e.1 ∉ ys))
    (fun s x rest hl hi => DeleteMe_first_loop w xs ys hrl hne hflys hrlxs hdisj s x rest hl hi)
    xs (w, []) fuel hfl
    ⟨rfl, fun z hz => ⟨hz, hfx z hz⟩, hfy, hrl, by simp, by simp⟩ hfuel1
  obtain ⟨henv1, _, hys1, hrl1, hlog1, hlogy1⟩ := hi1
  have hempty1 : (s1.1.heap w.env.finalizing_reflist).next_ = none := by
    simpa [Chain] using hl1.chain
  rw [List.append_nil] at hlog1
  obtain ⟨s2, h2, hl2, hi2⟩ := FinalizeAll_inv (fun s => s.1.heap) observedFinalize
    w.env.reflist
    (fun s zs => s.1.env = w.env ∧
      (∀ z, z ∈ zs → z ∈ ys ∧ (s.1.finalizers z).finalized = false) ∧
      (s.1.heap w.env.finalizing_reflist).next_ = none ∧
      s.2.map Prod.fst ++ zs = xs ++ ys ∧
      (∀ e, e ∈ s.2 → e.1 ∈ ys → e.2 = none))
    (fun s y rest hl hi => DeleteMe_second_loop w xs ys hne hflys s y rest hl hi)
    ys s1 fuel hrl1
    ⟨henv1, fun z hz => ⟨hz, hys1 z hz⟩, hempty1, by rw [hlog1],
      fun e he hey => absurd hey (hlogy1 e he)⟩ hfuel2
  obtain ⟨_, _, hempty2, hlog2, hlogy2⟩ := hi2
  rw [List.append_nil] at hlog2
  refine ⟨s2.1, s2.2, ?_, hlog2, hlogy2, hempty2, by simpa [Chain] using hl2.chain⟩
  simp only [DeleteMe, h1, henv1, h2]

/-- C12 at an environment with `finalizing_reflist` `1 → 2 → 3` and `reflist`
`0 → 4`: the teardown finalizes `2`, `3`, then `4`. -/
theorem DeleteMe_finalizing_first_witness :
    ∃ w2 log, DeleteMe 3
        { FinalizerState.start with
          heap := heapOfTable [(1, some 2, none), (2, some 3, some 1), (3, none, some 2),
            (0, some 4, none), (4, none, some 0)] } = some (w2, log) ∧
      log.map Prod.fst = [2, 3] ++ [4] ∧
      (∀ e, e ∈ log → e.1 ∈ [4] → e.2 = none) ∧
      (w2.heap 1).next_ = none ∧ (w2.heap 0).next_ = none :=
  DeleteMe_finalizing_first
    { FinalizerState.start with
      heap := heapOfTable [(1, some 2, none), (2, some 3, some 1), (3, none, some 2),
        (0, some 4, none), (4, none, some 0)] }
    [2, 3] [4] (by decide) (by decide) (by decide) (by decide) (by decide) (by decide)
    (by decide) (by decide) 3 (by decide) (by decide)

end v8impl
